import Mathlib

/-!
Verification development for the lawde.py acquisition pipeline
(gesetze-tools repository).

The embedding models, directly from the source:

- the retry loop of Lawde.download_law (requests.get attempts, sleeps,
  re-raise after more than 3 failed tries);
- zip validation (zipfile.ZipFile succeeding or raising BadZipfile),
  modelled as a Body that either is an archive or is not;
- Lawde.build_law_path, Lawde.remove_law (shutil.rmtree with
  ignore_errors), and Lawde.store (remove, mkdir with parents, then a
  per-entry loop writing prettified xml or extracting other entries);
- xml.dom.minidom parseString and toprettyxml with a two-space indent,
  via an explicit tree type, a writer mirroring minidom writexml, and a
  recursive-descent parser for the well-formed fragment the program
  handles (tags, attributes, text with the four standard entities, an
  optional xml declaration);
- the per-law unit of work of Lawde.download_and_store, and Lawde.load
  collecting one Outcome per law, with every exception captured inside
  the unit that raised it.

The filesystem is a pair of functions (files and directories); every
filesystem effect of the program is a list of blind operations (remove
tree, make directory, write file), which is faithful because the source
never reads the filesystem to decide control flow.
-/

namespace Lawde

/-! ## Filesystem model -/

abbrev Path := List String

@[ext]
structure FS where
  file : Path → Option String
  dir : Path → Bool

inductive FsOp where
  | rm (p : Path)
  | mkd (p : Path)
  | write (p : Path) (c : String)
deriving DecidableEq

def applyOp (op : FsOp) (fs : FS) : FS :=
  match op with
  | .rm p =>
      ⟨fun q => if p.isPrefixOf q then none else fs.file q,
       fun q => if p.isPrefixOf q then false else fs.dir q⟩
  | .mkd p =>
      ⟨fs.file, fun q => if q.isPrefixOf p then true else fs.dir q⟩
  | .write p c =>
      ⟨fun q => if q = p then some c else fs.file q, fs.dir⟩

def applyOps (ops : List FsOp) (fs : FS) : FS :=
  ops.foldl (fun acc op => applyOp op acc) fs

def emptyFS : FS := ⟨fun _ => none, fun _ => false⟩

/-! ## HTTP and archive model

requests.get either returns a response (with a status code the source
never inspects, and a body that either is a valid zip or is not) or
raises an exception.  zipfile.ZipFile succeeds exactly on a zip body and
raises BadZipfile otherwise. -/

structure ZEntry where
  name : String
  content : String
deriving DecidableEq

inductive Body where
  | zipArchive (entries : List ZEntry)
  | notZip (raw : String)
deriving DecidableEq

inductive ReqResult where
  | ok (status : Nat) (body : Body)
  | exn
deriving DecidableEq

inductive FetchOut where
  | success (status : Nat) (body : Body)
  | failure
deriving DecidableEq

structure FetchTrace where
  attempts : Nat
  sleeps : List Nat
  result : FetchOut
deriving DecidableEq

/-- Retry loop of Lawde.download_law: try requests.get; on an exception
increment tries, re-raise once tries exceeds 3, otherwise sleep
tries * 3 seconds and retry.  The budget argument is the number of
retries still allowed (3 - tries). -/
def requestLoop (get : Nat → ReqResult) : Nat → Nat → FetchTrace
  | 0, tries =>
      match get tries with
      | .ok st b => ⟨1, [], .success st b⟩
      | .exn => ⟨1, [], .failure⟩
  | budget + 1, tries =>
      match get tries with
      | .ok st b => ⟨1, [], .success st b⟩
      | .exn =>
          let r := requestLoop get budget (tries + 1)
          ⟨r.attempts + 1, (tries + 1) * 3 :: r.sleeps, r.result⟩

/-- The full retry loop starting from tries = 0 with 3 retries allowed
after the initial attempt. -/
def fetch (get : Nat → ReqResult) : FetchTrace := requestLoop get 3 0

/-! ## XML document model

A tree of elements and text nodes, with the writer mirroring
xml.dom.minidom Element.writexml and Text.writexml (Python 3.8+
behavior: an element whose only child is a text node is written inline;
otherwise each child is written on its own line at one more indent
level), and a recursive-descent parser for the well-formed fragment:
tags, double-quoted attributes, character data with the four standard
entities, and an optional leading xml declaration. -/

inductive XNode where
  | text (s : String)
  | elem (tag : String) (attrs : List (String × String)) (kids : List XNode)

def isWSChar (c : Char) : Bool := c = ' ' || c = '\n' || c = '\t' || c = '\r'

def isNameChar (c : Char) : Bool :=
  c.isAlphanum || c = '_' || c = '-' || c = '.' || c = ':'

/-- Escaping performed by minidom when writing character data and
attribute values. -/
def escapeChar (c : Char) : List Char :=
  if c = '&' then ['&', 'a', 'm', 'p', ';']
  else if c = '<' then ['&', 'l', 't', ';']
  else if c = '"' then ['&', 'q', 'u', 'o', 't', ';']
  else if c = '>' then ['&', 'g', 't', ';']
  else [c]

def escapeL : List Char → List Char
  | [] => []
  | c :: rest => escapeChar c ++ escapeL rest

/-- Lawde.INDENT_CHAR. -/
def INDENT_CHAR : Char := ' '

/-- Lawde.INDENT. -/
def INDENT : Nat := 2

/-- The indent string the constructor builds: INDENT_CHAR * INDENT. -/
def indentUnit : String := String.mk (List.replicate INDENT INDENT_CHAR)

/-- Attribute list as written by minidom. -/
def attrsL : List (String × String) → List Char
  | [] => []
  | (n, v) :: rest => ' ' :: n.data ++ '=' :: '"' :: escapeL v.data ++ '"' :: attrsL rest

mutual

/-- Characters written for one node, without the leading indent and the
trailing newline (minidom writes indent ++ these ++ newline).  For a
text node these are just the escaped data. -/
def coreL (ind : String) : XNode → List Char
  | .text s => escapeL s.data
  | .elem tag attrs ks =>
      '<' :: tag.data ++ attrsL attrs ++
        (match ks with
         | [] => ['/', '>']
         | [.text s] => '>' :: escapeL s.data ++ '<' :: '/' :: tag.data ++ ['>']
         | _ => '>' :: '\n' :: kidsL (ind ++ indentUnit) ks ++
                  ind.data ++ '<' :: '/' :: tag.data ++ ['>'])

/-- Characters written for a child list: each child is written as
indent ++ core ++ newline. -/
def kidsL (ind : String) : List XNode → List Char
  | [] => []
  | k :: rest => ind.data ++ coreL ind k ++ '\n' :: kidsL ind rest

end

/-- The xml declaration toprettyxml emits for encoding utf-8. -/
def xmlDecl : String := "<?xml version=\"1.0\" encoding=\"utf-8\"?>"

/-- dom.toprettyxml(encoding = utf-8, indent = two spaces): declaration,
newline, then the root element written at indent zero. -/
def toprettyxml (root : XNode) : String :=
  xmlDecl ++ "\n" ++ String.mk (coreL "" root) ++ "\n"

def prettyDoc (root : XNode) : String := toprettyxml root

/-! ### Parser -/

def dropWSL : List Char → List Char
  | [] => []
  | c :: rest => if isWSChar c then dropWSL rest else c :: rest

def takeNameL : List Char → List Char × List Char
  | [] => ([], [])
  | c :: rest =>
      if isNameChar c then
        let pr := takeNameL rest
        (c :: pr.1, pr.2)
      else ([], c :: rest)

/-- Character data up to the next tag-open, decoding the four standard
entities; fails on a bare ampersand (as expat does). -/
def takeTextL : List Char → Option (List Char × List Char)
  | [] => some ([], [])
  | c :: rest =>
      if c = '<' then some ([], c :: rest)
      else if c = '&' then
        match rest with
        | 'a' :: 'm' :: 'p' :: ';' :: r =>
            (takeTextL r).map (fun pr => ('&' :: pr.1, pr.2))
        | 'l' :: 't' :: ';' :: r =>
            (takeTextL r).map (fun pr => ('<' :: pr.1, pr.2))
        | 'g' :: 't' :: ';' :: r =>
            (takeTextL r).map (fun pr => ('>' :: pr.1, pr.2))
        | 'q' :: 'u' :: 'o' :: 't' :: ';' :: r =>
            (takeTextL r).map (fun pr => ('"' :: pr.1, pr.2))
        | _ => none
      else (takeTextL rest).map (fun pr => (c :: pr.1, pr.2))

/-- Attribute value up to the closing double quote (which is consumed),
decoding entities; a raw tag-open inside a value is malformed. -/
def takeAttrValL : List Char → Option (List Char × List Char)
  | [] => none
  | c :: rest =>
      if c = '"' then some ([], rest)
      else if c = '<' then none
      else if c = '&' then
        match rest with
        | 'a' :: 'm' :: 'p' :: ';' :: r =>
            (takeAttrValL r).map (fun pr => ('&' :: pr.1, pr.2))
        | 'l' :: 't' :: ';' :: r =>
            (takeAttrValL r).map (fun pr => ('<' :: pr.1, pr.2))
        | 'g' :: 't' :: ';' :: r =>
            (takeAttrValL r).map (fun pr => ('>' :: pr.1, pr.2))
        | 'q' :: 'u' :: 'o' :: 't' :: ';' :: r =>
            (takeAttrValL r).map (fun pr => ('"' :: pr.1, pr.2))
        | _ => none
      else (takeAttrValL rest).map (fun pr => (c :: pr.1, pr.2))

def parseAttrsF : Nat → List Char → Option (List (String × String) × List Char)
  | 0, _ => none
  | fuel + 1, cs =>
      match dropWSL cs with
      | [] => none
      | c :: rest =>
          if c = '/' ∨ c = '>' then some ([], c :: rest)
          else
            let pr := takeNameL (c :: rest)
            if pr.1 = [] then none
            else
              match pr.2 with
              | '=' :: '"' :: cs2 =>
                  match takeAttrValL cs2 with
                  | none => none
                  | some (v, cs3) =>
                      match parseAttrsF fuel cs3 with
                      | none => none
                      | some (attrs, cs4) =>
                          some ((String.mk pr.1, String.mk v) :: attrs, cs4)
              | _ => none

mutual

def parseElemF : Nat → List Char → Option (XNode × List Char)
  | 0, _ => none
  | fuel + 1, cs =>
      match cs with
      | [] => none
      | c :: rest =>
          if c = '<' then
            let pr := takeNameL rest
            if pr.1 = [] then none
            else
              match parseAttrsF (pr.2.length + 1) pr.2 with
              | none => none
              | some (attrs, cs2) =>
                  match cs2 with
                  | [] => none
                  | c2 :: cs3 =>
                      if c2 = '/' then
                        match cs3 with
                        | [] => none
                        | c3 :: cs4 =>
                            if c3 = '>' then some (.elem (String.mk pr.1) attrs [], cs4)
                            else none
                      else if c2 = '>' then
                        match parseNodesF fuel cs3 with
                        | none => none
                        | some (kids, cs4) =>
                            match cs4 with
                            | c4 :: c5 :: cs5 =>
                                if c4 = '<' ∧ c5 = '/' then
                                  let pr2 := takeNameL cs5
                                  if pr2.1 = pr.1 then
                                    match dropWSL pr2.2 with
                                    | [] => none
                                    | c6 :: cs6 =>
                                        if c6 = '>' then
                                          some (.elem (String.mk pr.1) attrs kids, cs6)
                                        else none
                                  else none
                                else none
                            | _ => none
                      else none
          else none

def parseNodesF : Nat → List Char → Option (List XNode × List Char)
  | 0, _ => none
  | fuel + 1, cs =>
      match cs with
      | [] => none
      | c :: rest =>
          if c = '<' then
            match rest with
            | [] => none
            | c2 :: rest2 =>
                if c2 = '/' then some ([], c :: c2 :: rest2)
                else
                  match parseElemF fuel (c :: c2 :: rest2) with
                  | none => none
                  | some (nd, cs2) =>
                      match parseNodesF fuel cs2 with
                      | none => none
                      | some (kids, cs3) => some (nd :: kids, cs3)
          else
            match takeTextL (c :: rest) with
            | none => none
            | some (txt, cs2) =>
                match parseNodesF fuel cs2 with
                | none => none
                | some (kids, cs3) => some (.text (String.mk txt) :: kids, cs3)

end

/-- Scan past an xml declaration: everything up to and including the
first question-mark tag-close pair. -/
def dropDeclEndL : List Char → Option (List Char)
  | [] => none
  | c :: rest =>
      if c = '?' then
        match rest with
        | [] => none
        | c2 :: rest2 => if c2 = '>' then some rest2 else dropDeclEndL rest
      else dropDeclEndL rest

/-- xml.dom.minidom.parseString on the fragment the program handles: an
optional declaration, optional surrounding whitespace, one root
element. -/
def parseDoc (s : String) : Option XNode :=
  let afterDecl : Option (List Char) :=
    match s.data with
    | c :: c2 :: rest => if c = '<' ∧ c2 = '?' then dropDeclEndL rest else some s.data
    | _ => some s.data
  match afterDecl with
  | none => none
  | some cs0 =>
      let cs1 := dropWSL cs0
      match parseElemF (cs1.length + 1) cs1 with
      | none => none
      | some (root, rest) => if dropWSL rest = [] then some root else none

/-- The transformation Lawde.store applies to a structured entry:
parseString then toprettyxml. -/
def normalizeStr (s : String) : Option String := (parseDoc s).map prettyDoc

/-! ### Round-trip vocabulary

The writer inserts whitespace-only text nodes (newline plus two more
spaces of indent per nesting level) around element children, so
re-parsing its output yields the original tree only after those nodes
are discarded.  The reparse function states the exact tree the parser
returns on written output; stripWS discards whitespace-only text
children. -/

def wsOnly (s : String) : Bool := s.data.all isWSChar

def nameOK (s : String) : Bool := !s.data.isEmpty && s.data.all isNameChar

mutual

/-- Documents the round trip is stated for: named tags and attributes,
non-empty text, and no mixed content except whitespace-only text between
element children (exactly what parsing a document and parsing the
writer's own output can produce). -/
def Good : XNode → Bool
  | .text s => !s.data.isEmpty
  | .elem tag attrs ks =>
      nameOK tag && attrs.all (fun p => nameOK p.1) &&
        (match ks with
         | [] => true
         | [.text s] => !s.data.isEmpty
         | _ => GoodKids ks)

def GoodKids : List XNode → Bool
  | [] => true
  | k :: rest =>
      Good k &&
        (match k with
         | .text s => wsOnly s
         | _ => true) && GoodKids rest

end

mutual

/-- The tree the parser returns on the writer's output: identical
except that, around element children, the indentation whitespace becomes
text nodes (newline, then the parent indent plus one two-space unit per
level). -/
def reparse (ind : String) : XNode → XNode
  | .text s => .text s
  | .elem tag attrs ks =>
      match ks with
      | [] => .elem tag attrs []
      | [.text s] => .elem tag attrs [.text s]
      | _ => .elem tag attrs (rekids ind (ind ++ indentUnit) "\n" ks)

/-- Child list after re-parsing: pending whitespace accumulates until an
element child flushes it as one text node; the final run closes with the
parent indent before the end tag. -/
def rekids (ind ind2 acc : String) : List XNode → List XNode
  | [] => [.text (acc ++ ind)]
  | .text s :: rest => rekids ind ind2 (acc ++ ind2 ++ s ++ "\n") rest
  | k :: rest => .text (acc ++ ind2) :: reparse ind2 k :: rekids ind ind2 "\n" rest

end

mutual

/-- Discard whitespace-only text children, recursively. -/
def stripWS : XNode → XNode
  | .text s => .text s
  | .elem tag attrs ks => .elem tag attrs (stripKids ks)

def stripKids : List XNode → List XNode
  | [] => []
  | .text s :: rest =>
      if wsOnly s then stripKids rest else .text s :: stripKids rest
  | k :: rest => stripWS k :: stripKids rest

end

/-! ## Storage -/

/-- Python str.endswith on the character sequence. -/
def endsWithStr (s pat : String) : Bool := pat.data.isSuffixOf s.data

/-- Python str.startswith on the character sequence. -/
def startsWithStr (s pat : String) : Bool := pat.data.isPrefixOf s.data

/-- Python law[0] as a one-character string (laws are non-empty). -/
def firstCharStr (s : String) : String := String.mk (s.data.take 1)

/-- Lawde.build_law_path: root / law[0] / law. -/
def build_law_path (root : Path) (law : String) : Path :=
  root ++ [firstCharStr law, law]

/-- Lawde.remove_law: shutil.rmtree of the law path with
ignore_errors = True (removing a missing tree is not an error, so this
is a total operation). -/
def remove_law (root : Path) (law : String) : List FsOp :=
  [FsOp.rm (build_law_path root law)]

/-- The per-entry loop of Lawde.store.  Returns the write operations in
program order together with a flag that is true when parseString raised
on some structured entry; operations after the raising entry are not
performed.  An entry ending in .xml is parsed and prettified, written to
law.xml under the law path unless its name starts with the underscore
marker, in which case the open call uses the bare entry name, a path
relative to the working directory.  Any other entry is extracted
verbatim under the law path. -/
def store_entry_ops (law : String) (lawPath : Path) : List ZEntry → List FsOp × Bool
  | [] => ([], false)
  | e :: rest =>
      if endsWithStr e.name ".xml" then
        match parseDoc e.content with
        | none => ([], true)
        | some dom =>
            let target : Path :=
              if !(startsWithStr e.name "_") then lawPath ++ [law ++ ".xml"]
              else [e.name]
            let pr := store_entry_ops law lawPath rest
            (FsOp.write target (prettyDoc dom) :: pr.1, pr.2)
      else
        let pr := store_entry_ops law lawPath rest
        (FsOp.write (lawPath ++ [e.name]) e.content :: pr.1, pr.2)

/-- Lawde.store: remove_law, mkdir with parents, then the entry loop. -/
def store (root : Path) (law : String) (entries : List ZEntry) : List FsOp × Bool :=
  let p := build_law_path root law
  let pr := store_entry_ops law p entries
  (FsOp.rm p :: FsOp.mkd p :: pr.1, pr.2)

/-! ## The per-law unit of work and the pool -/

inductive Outcome where
  | stored
  | skipped
  | failed
deriving DecidableEq

structure UnitResult where
  outcome : Outcome
  attempts : Nat
  sleeps : List Nat
  ops : List FsOp
deriving DecidableEq

/-- Lawde.download_and_store as one unit of work, as observed by
Lawde.load: a fetch failure raises out of download_law and is captured
by the pool as a Failed outcome; a BadZipfile leads to remove_law and
returning None (Skipped, nothing stored); otherwise store runs, and a
parseString error inside it raises and is captured as Failed.  The
control flow never reads the filesystem, so the unit is a pure function
of the request behavior producing a list of filesystem operations. -/
def download_and_store (get : Nat → ReqResult) (root : Path) (law : String) : UnitResult :=
  let ft := fetch get
  match ft.result with
  | .failure => ⟨.failed, ft.attempts, ft.sleeps, []⟩
  | .success _ body =>
      match body with
      | .notZip _ => ⟨.skipped, ft.attempts, ft.sleeps, remove_law root law⟩
      | .zipArchive entries =>
          let pr := store root law entries
          ⟨if pr.2 then .failed else .stored, ft.attempts, ft.sleeps, pr.1⟩

/-- The filesystem after one unit of work. -/
def runFS (get : Nat → ReqResult) (root : Path) (law : String) (fs : FS) : FS :=
  applyOps (download_and_store get root law).ops fs

/-- Lawde.load: each law is submitted as an independent future and its
exception, if any, is caught around future.result, so the run collects
one outcome per law and an exception in one unit never terminates the
pool nor changes another unit's outcome. -/
def load (behavior : String → Nat → ReqResult) (root : Path) (laws : List String) : List Outcome :=
  laws.map (fun law => (download_and_store (behavior law) root law).outcome)

/-! ## Concrete data used by witnesses and counterexamples -/

def demoRoot : Path := ["laws"]

def alwaysExn : Nat → ReqResult := fun _ => ReqResult.exn

def get404 : Nat → ReqResult :=
  fun _ => ReqResult.ok 404 (Body.notZip "<html>Not Found</html>")

def getBody (b : Body) : Nat → ReqResult := fun _ => ReqResult.ok 200 b

/-- Archive with an asset entry followed by a malformed structured
entry. -/
def badXmlArchive : List ZEntry := [⟨"readme.txt", "hello"⟩, ⟨"law.xml", "<a"⟩]

/-- Archive whose only structured entry carries the underscore marker. -/
def markerArchive : List ZEntry := [⟨"_x.xml", "<a/>"⟩]

/-- Archive with two non-marker structured entries. -/
def twoXmlArchive : List ZEntry := [⟨"a.xml", "<a>1</a>"⟩, ⟨"b.xml", "<a>2</a>"⟩]

/-- Archive with one structured entry and one asset. -/
def mixedArchive : List ZEntry := [⟨"a.xml", "<a/>"⟩, ⟨"readme.txt", "hi"⟩]

def demoXml : String := "<a><b>t</b><c>u</c></a>"

def demoTree : XNode :=
  .elem "a" [] [.elem "b" [] [.text "t"], .elem "c" [] [.text "u"]]

/-- Number of children of the root of a parse result; used to separate
two parse trees without a decidable equality on trees. -/
def topKidCount : Option XNode → Nat
  | some (.elem _ _ ks) => ks.length
  | _ => 0

/-- Behavior in which law bbb always raises and every other law serves
a one-entry archive. -/
def demoBehavior : String → Nat → ReqResult :=
  fun law =>
    if law = "bbb" then alwaysExn
    else getBody (Body.zipArchive [⟨"a.xml", "<a/>"⟩])

/-! ## Pointwise view of filesystem operations

Every operation acts on the value stored at one fixed path either as
the identity or as a constant, which is what makes replayed operation
lists idempotent. -/

/-- Effect of one operation on the file value at path q. -/
def opFile (op : FsOp) (q : Path) (v : Option String) : Option String :=
  match op with
  | .rm p => if p.isPrefixOf q then none else v
  | .mkd _ => v
  | .write p c => if q = p then some c else v

/-- Effect of one operation on the directory bit at path q. -/
def opDir (op : FsOp) (q : Path) (b : Bool) : Bool :=
  match op with
  | .rm p => if p.isPrefixOf q then false else b
  | .mkd p => if q.isPrefixOf p then true else b
  | .write _ _ => b

def fileFold (ops : List FsOp) (q : Path) (v : Option String) : Option String :=
  ops.foldl (fun v op => opFile op q v) v

def dirFold (ops : List FsOp) (q : Path) (b : Bool) : Bool :=
  ops.foldl (fun b op => opDir op q b) b

/-- A zip entry the store loop survives: either not a structured entry,
or one whose content parseString accepts. -/
def cleanEntry (e : ZEntry) : Bool :=
  !(endsWithStr e.name ".xml") || (parseDoc e.content).isSome

/-- A structured entry without the underscore marker: the entries whose
normalization is written to the canonical law.xml file. -/
def isCanonEntry (e : ZEntry) : Bool :=
  endsWithStr e.name ".xml" && !(startsWithStr e.name "_")

/-- The normalizations of the non-marker structured entries, in archive
order: the successive contents written to the canonical file. -/
def canonSeq (entries : List ZEntry) : List String :=
  entries.filterMap
    (fun e => if isCanonEntry e then (parseDoc e.content).map prettyDoc else none)

/-- The contents written to path q by an operation list, in order. -/
def writesTo (q : Path) (ops : List FsOp) : List String :=
  ops.filterMap
    (fun op =>
      match op with
      | FsOp.write p c => if p = q then some c else none
      | _ => none)

/-- The canonical document path of a law. -/
def canonPath (root : Path) (law : String) : Path :=
  build_law_path root law ++ [law ++ ".xml"]

/-! # Theorems -/

/-- Evaluation of the retry loop when every attempt raises. -/
theorem fetch_allExn (get : Nat → ReqResult) (h : ∀ n, get n = ReqResult.exn) :
    fetch get = ⟨4, [3, 6, 9], FetchOut.failure⟩ := by
  simp [fetch, requestLoop, h]

/-- Evaluation of the retry loop when the first attempt returns a
response. -/
theorem fetch_first_ok (get : Nat → ReqResult) (st : Nat) (b : Body)
    (h : get 0 = ReqResult.ok st b) :
    fetch get = ⟨1, [], FetchOut.success st b⟩ := by
  simp [fetch, requestLoop, h]

/-- The whole unit of work when every attempt raises: the exception is
re-raised after the fourth attempt and captured by the pool. -/
theorem unit_allExn (get : Nat → ReqResult) (root : Path) (law : String)
    (h : ∀ n, get n = ReqResult.exn) :
    download_and_store get root law = ⟨Outcome.failed, 4, [3, 6, 9], []⟩ := by
  simp [download_and_store, fetch_allExn get h]

/-- Claim C2 (confirmed): when every HTTP GET for a law raises, the
fetch performs exactly 4 attempts (initial try plus 3 retries), sleeps
attempt-index times 3 seconds after each of the first three failed
attempts (3, 6, 9), and the re-raised exception makes exactly this law's
unit of work end with a Failed outcome and no filesystem effect. -/
theorem retry_bound (get : Nat → ReqResult) (root : Path) (law : String)
    (h : ∀ n, get n = ReqResult.exn) :
    fetch get = ⟨4, [1 * 3, 2 * 3, 3 * 3], FetchOut.failure⟩ ∧
    (download_and_store get root law).attempts = 4 ∧
    (download_and_store get root law).sleeps = [3, 6, 9] ∧
    (download_and_store get root law).outcome = Outcome.failed ∧
    (download_and_store get root law).ops = [] := by
  have hu := unit_allExn get root law h
  refine ⟨by simpa using fetch_allExn get h, ?_, ?_, ?_, ?_⟩ <;> rw [hu]

/-- Witness for C2 at the always-raising behavior. -/
theorem retry_bound_witness :
    (∀ n, alwaysExn n = ReqResult.exn) ∧
    (download_and_store alwaysExn demoRoot "aaa").attempts = 4 ∧
    (download_and_store alwaysExn demoRoot "aaa").outcome = Outcome.failed :=
  ⟨fun _ => rfl,
   (retry_bound alwaysExn demoRoot "aaa" (fun _ => rfl)).2.1,
   (retry_bound alwaysExn demoRoot "aaa" (fun _ => rfl)).2.2.2.1⟩

/-- Claim C3 counterexample: a permanent 404 is a response, not an
exception, so requests.get returns it on the first attempt; the body is
not a zip, so the unit performs exactly one fetch attempt and is
reported Skipped, not Failed after 4 attempts as the claim states. -/
theorem non2xx_counterexample :
    (download_and_store get404 demoRoot "bbb").attempts = 1 ∧
    (download_and_store get404 demoRoot "bbb").outcome = Outcome.skipped ∧
    Outcome.skipped ≠ Outcome.failed := by
  decide

/-- Claim C3 (corrected): for an identifier whose endpoint answers every
request with an error-status response (never an exception), the source
accepts the response on the first attempt — the status code is never
inspected — and the non-zip error body makes ZipFile raise BadZipfile,
so the unit removes any storage location for the law and ends Skipped
after exactly 1 fetch attempt with no sleeps. -/
theorem non2xx_status_skipped (get : Nat → ReqResult) (root : Path) (law : String)
    (st : Nat) (raw : String) (fs : FS)
    (h : ∀ n, get n = ReqResult.ok st (Body.notZip raw)) :
    (download_and_store get root law).attempts = 1 ∧
    (download_and_store get root law).sleeps = [] ∧
    (download_and_store get root law).outcome = Outcome.skipped ∧
    (∀ q, (build_law_path root law).isPrefixOf q = true →
      (runFS get root law fs).file q = none ∧
      (runFS get root law fs).dir q = false) := by
  have hf := fetch_first_ok get st (Body.notZip raw) (h 0)
  have hu : download_and_store get root law =
      ⟨Outcome.skipped, 1, [], remove_law root law⟩ := by
    simp [download_and_store, hf]
  refine ⟨by rw [hu], by rw [hu], by rw [hu], ?_⟩
  intro q hq
  have hq' : build_law_path root law <+: q := List.isPrefixOf_iff_prefix.mp hq
  constructor <;> simp [runFS, hu, remove_law, applyOps, applyOp, hq']

/-- Witness for C3 (corrected) at the 404 behavior. -/
theorem non2xx_status_skipped_witness :
    (∀ n, get404 n = ReqResult.ok 404 (Body.notZip "<html>Not Found</html>")) ∧
    (download_and_store get404 demoRoot "bbb").attempts = 1 ∧
    (runFS get404 demoRoot "bbb" emptyFS).dir ["laws", "b", "bbb"] = false :=
  ⟨fun _ => rfl,
   (non2xx_status_skipped get404 demoRoot "bbb" 404 "<html>Not Found</html>" emptyFS
     (fun _ => rfl)).1,
   ((non2xx_status_skipped get404 demoRoot "bbb" 404 "<html>Not Found</html>" emptyFS
     (fun _ => rfl)).2.2.2 ["laws", "b", "bbb"] (by decide)).2⟩

/-- Claim C4 (confirmed): when the fetched body is not a valid zip,
BadZipfile is caught as a value, the unit performs exactly the explicit
remove of the law path (removal of a missing tree is not an error: the
starting filesystem is arbitrary), the outcome is Skipped, and
afterwards the storage location does not exist even if it held stale
content before. -/
theorem invalid_archive_cleanup (get : Nat → ReqResult) (root : Path) (law : String)
    (st : Nat) (raw : String) (fs : FS)
    (h : (fetch get).result = FetchOut.success st (Body.notZip raw)) :
    (download_and_store get root law).outcome = Outcome.skipped ∧
    (download_and_store get root law).ops = remove_law root law ∧
    (∀ q, (build_law_path root law).isPrefixOf q = true →
      (runFS get root law fs).file q = none ∧
      (runFS get root law fs).dir q = false) := by
  have hu : download_and_store get root law =
      ⟨Outcome.skipped, (fetch get).attempts, (fetch get).sleeps, remove_law root law⟩ := by
    simp [download_and_store, h]
  refine ⟨by rw [hu], by rw [hu], ?_⟩
  intro q hq
  have hq' : build_law_path root law <+: q := List.isPrefixOf_iff_prefix.mp hq
  constructor <;> simp [runFS, hu, remove_law, applyOps, applyOp, hq']

/-- Witness for C4 at the 404 behavior with a stale filesystem. -/
theorem invalid_archive_cleanup_witness :
    ((fetch get404).result = FetchOut.success 404 (Body.notZip "<html>Not Found</html>")) ∧
    (download_and_store get404 demoRoot "bbb").outcome = Outcome.skipped ∧
    (runFS get404 demoRoot "bbb"
        ⟨fun _ => some "stale", fun _ => true⟩).file ["laws", "b", "bbb", "old.xml"] = none :=
  ⟨by decide,
   (invalid_archive_cleanup get404 demoRoot "bbb" 404 "<html>Not Found</html>"
     ⟨fun _ => some "stale", fun _ => true⟩ (by decide)).1,
   ((invalid_archive_cleanup get404 demoRoot "bbb" 404 "<html>Not Found</html>"
     ⟨fun _ => some "stale", fun _ => true⟩ (by decide)).2.2
     ["laws", "b", "bbb", "old.xml"] (by decide)).1⟩

/-- Claim C1 (confirmed): with one law whose fetch always raises and all
other laws' units not failing, the run yields exactly the per-law
outcomes in submission order — the failing law contributes the single
Failed outcome, every other law keeps the outcome its unit produces in
isolation — so there are N-1 Stored or Skipped outcomes and exactly one
Failed outcome, regardless of the failing law's position. -/
theorem failure_isolation (behavior : String → Nat → ReqResult) (root : Path)
    (pre post : List String) (bad : String)
    (hbad : ∀ n, behavior bad n = ReqResult.exn)
    (hok : ∀ l, l ∈ pre ++ post →
      (download_and_store (behavior l) root l).outcome ≠ Outcome.failed) :
    load behavior root (pre ++ bad :: post) =
      pre.map (fun l => (download_and_store (behavior l) root l).outcome) ++
        Outcome.failed :: post.map (fun l => (download_and_store (behavior l) root l).outcome) ∧
    (load behavior root (pre ++ bad :: post)).count Outcome.failed = 1 ∧
    (load behavior root (pre ++ bad :: post)).countP
        (fun o => decide (o = Outcome.stored ∨ o = Outcome.skipped)) =
      pre.length + post.length := by
  have hbadout : (download_and_store (behavior bad) root bad).outcome = Outcome.failed := by
    rw [unit_allExn (behavior bad) root bad hbad]
  have hpre : ∀ l, l ∈ pre →
      (download_and_store (behavior l) root l).outcome ≠ Outcome.failed :=
    fun l hl => hok l (List.mem_append_left _ hl)
  have hpost : ∀ l, l ∈ post →
      (download_and_store (behavior l) root l).outcome ≠ Outcome.failed :=
    fun l hl => hok l (List.mem_append_right _ hl)
  have hshape : load behavior root (pre ++ bad :: post) =
      pre.map (fun l => (download_and_store (behavior l) root l).outcome) ++
        Outcome.failed ::
          post.map (fun l => (download_and_store (behavior l) root l).outcome) := by
    simp [load, hbadout]
  have hnotmem : ∀ (xs : List String),
      (∀ l, l ∈ xs → (download_and_store (behavior l) root l).outcome ≠ Outcome.failed) →
      Outcome.failed ∉ xs.map (fun l => (download_and_store (behavior l) root l).outcome) := by
    intro xs hxs hmem
    obtain ⟨l, hl, he⟩ := List.mem_map.mp hmem
    exact hxs l hl he
  have hcnt : (load behavior root (pre ++ bad :: post)).count Outcome.failed = 1 := by
    rw [hshape, List.count_append, List.count_cons]
    rw [List.count_eq_zero.mpr (hnotmem pre hpre), List.count_eq_zero.mpr (hnotmem post hpost)]
    simp
  have hgood : ∀ (o : Outcome), o ≠ Outcome.failed →
      decide (o = Outcome.stored ∨ o = Outcome.skipped) = true := by
    intro o ho
    cases o <;> simp_all
  have hcp : ∀ (xs : List String),
      (∀ l, l ∈ xs → (download_and_store (behavior l) root l).outcome ≠ Outcome.failed) →
      (xs.map (fun l => (download_and_store (behavior l) root l).outcome)).countP
          (fun o => decide (o = Outcome.stored ∨ o = Outcome.skipped)) = xs.length := by
    intro xs hxs
    rw [List.countP_eq_length.mpr]
    · exact List.length_map _ _
    · intro o ho
      obtain ⟨l, hl, he⟩ := List.mem_map.mp ho
      exact hgood o (he ▸ hxs l hl)
  refine ⟨hshape, hcnt, ?_⟩
  rw [hshape, List.countP_append, List.countP_cons]
  rw [hcp pre hpre, hcp post hpost]
  simp

/-- Witness for C1: three laws with the middle one failing. -/
theorem failure_isolation_witness :
    ((∀ n, demoBehavior "bbb" n = ReqResult.exn) ∧
      (∀ l, l ∈ ["aaa"] ++ ["ccc"] →
        (download_and_store (demoBehavior l) demoRoot l).outcome ≠ Outcome.failed)) ∧
    (load demoBehavior demoRoot (["aaa"] ++ "bbb" :: ["ccc"])).count Outcome.failed = 1 :=
  ⟨⟨fun _ => rfl, by decide⟩,
   (failure_isolation demoBehavior demoRoot ["aaa"] ["ccc"] "bbb"
     (fun _ => rfl) (by decide)).2.1⟩

/-! ## Pointwise filesystem lemmas -/

theorem applyOp_file (op : FsOp) (fs : FS) (q : Path) :
    (applyOp op fs).file q = opFile op q (fs.file q) := by
  cases op <;> rfl

theorem applyOp_dir (op : FsOp) (fs : FS) (q : Path) :
    (applyOp op fs).dir q = opDir op q (fs.dir q) := by
  cases op <;> rfl

theorem applyOps_file (ops : List FsOp) (fs : FS) (q : Path) :
    (applyOps ops fs).file q = fileFold ops q (fs.file q) := by
  induction ops generalizing fs with
  | nil => rfl
  | cons op ops ih =>
      show (applyOps ops (applyOp op fs)).file q = _
      rw [ih, applyOp_file]
      rfl

theorem applyOps_dir (ops : List FsOp) (fs : FS) (q : Path) :
    (applyOps ops fs).dir q = dirFold ops q (fs.dir q) := by
  induction ops generalizing fs with
  | nil => rfl
  | cons op ops ih =>
      show (applyOps ops (applyOp op fs)).dir q = _
      rw [ih, applyOp_dir]
      rfl

theorem opFile_id_or_const (op : FsOp) (q : Path) :
    (∀ v, opFile op q v = v) ∨ ∃ c, ∀ v, opFile op q v = c := by
  cases op with
  | rm p =>
      by_cases h : p.isPrefixOf q = true
      · exact Or.inr ⟨none, fun v => by simp [opFile, h]⟩
      · exact Or.inl (fun v => by simp [opFile, h])
  | mkd p => exact Or.inl (fun v => rfl)
  | write p c =>
      by_cases h : q = p
      · exact Or.inr ⟨some c, fun v => by simp [opFile, h]⟩
      · exact Or.inl (fun v => by simp [opFile, h])

theorem opDir_id_or_const (op : FsOp) (q : Path) :
    (∀ b, opDir op q b = b) ∨ ∃ c, ∀ b, opDir op q b = c := by
  cases op with
  | rm p =>
      by_cases h : p.isPrefixOf q = true
      · exact Or.inr ⟨false, fun b => by simp [opDir, h]⟩
      · exact Or.inl (fun b => by simp [opDir, h])
  | mkd p =>
      by_cases h : q.isPrefixOf p = true
      · exact Or.inr ⟨true, fun b => by simp [opDir, h]⟩
      · exact Or.inl (fun b => by simp [opDir, h])
  | write p c => exact Or.inl (fun b => rfl)

theorem fileFold_id_or_const (ops : List FsOp) (q : Path) :
    (∀ v, fileFold ops q v = v) ∨ ∃ c, ∀ v, fileFold ops q v = c := by
  induction ops with
  | nil => exact Or.inl (fun v => rfl)
  | cons op ops ih =>
      have hstep : ∀ v, fileFold (op :: ops) q v = fileFold ops q (opFile op q v) :=
        fun v => rfl
      rcases opFile_id_or_const op q with hid | ⟨c, hc⟩
      · rcases ih with hid2 | ⟨c2, hc2⟩
        · exact Or.inl (fun v => by rw [hstep, hid, hid2])
        · exact Or.inr ⟨c2, fun v => by rw [hstep, hc2]⟩
      · rcases ih with hid2 | ⟨c2, hc2⟩
        · exact Or.inr ⟨fileFold ops q c, fun v => by rw [hstep, hc]⟩
        · exact Or.inr ⟨c2, fun v => by rw [hstep, hc2]⟩

theorem dirFold_id_or_const (ops : List FsOp) (q : Path) :
    (∀ b, dirFold ops q b = b) ∨ ∃ c, ∀ b, dirFold ops q b = c := by
  induction ops with
  | nil => exact Or.inl (fun b => rfl)
  | cons op ops ih =>
      have hstep : ∀ b, dirFold (op :: ops) q b = dirFold ops q (opDir op q b) :=
        fun b => rfl
      rcases opDir_id_or_const op q with hid | ⟨c, hc⟩
      · rcases ih with hid2 | ⟨c2, hc2⟩
        · exact Or.inl (fun b => by rw [hstep, hid, hid2])
        · exact Or.inr ⟨c2, fun b => by rw [hstep, hc2]⟩
      · rcases ih with hid2 | ⟨c2, hc2⟩
        · exact Or.inr ⟨dirFold ops q c, fun b => by rw [hstep, hc]⟩
        · exact Or.inr ⟨c2, fun b => by rw [hstep, hc2]⟩

theorem applyOps_idem (ops : List FsOp) (fs : FS) :
    applyOps ops (applyOps ops fs) = applyOps ops fs := by
  apply FS.ext
  · funext q
    rw [applyOps_file, applyOps_file]
    rcases fileFold_id_or_const ops q with hid | ⟨c, hc⟩
    · simp only [hid]
    · rw [hc, hc]
  · funext q
    rw [applyOps_dir, applyOps_dir]
    rcases dirFold_id_or_const ops q with hid | ⟨c, hc⟩
    · simp only [hid]
    · rw [hc, hc]

/-- Claim C8 (confirmed): the unit of work never reads the filesystem,
so its operation list is a fixed function of the remote behavior, and
replaying it is idempotent: running the pipeline twice for a law leaves
exactly the filesystem of one run, in particular byte-identical
canonical output; the per-law outcome is the same deterministic value
both times since normalization is a pure function of the entry bytes. -/
theorem pipeline_idempotent (get : Nat → ReqResult) (root : Path) (law : String) (fs : FS) :
    runFS get root law (runFS get root law fs) = runFS get root law fs := by
  unfold runFS
  exact applyOps_idem _ _

/-! ## Store loop lemmas -/

theorem fileFold_cons (op : FsOp) (ops : List FsOp) (q : Path) (v : Option String) :
    fileFold (op :: ops) q v = fileFold ops q (opFile op q v) := rfl

theorem endsWith_append (s t : String) : endsWithStr (s ++ t) t = true := by
  simp [endsWithStr]

theorem build_law_path_ne_single (root : Path) (law x : String) (q : String) :
    build_law_path root law ++ [x] ≠ [q] := by
  intro h
  have := congrArg List.length h
  simp [build_law_path] at this

theorem append_single_inj (p : Path) (a b : String) (h : p ++ [a] = p ++ [b]) : a = b := by
  have h2 := List.append_cancel_left h
  injection h2

theorem store_entry_ops_clean (law : String) (p : Path) :
    ∀ entries : List ZEntry, entries.all cleanEntry = true →
    (store_entry_ops law p entries).2 = false := by
  intro entries
  induction entries with
  | nil => intro _; rfl
  | cons e rest ih =>
      intro h
      rw [List.all_cons, Bool.and_eq_true] at h
      obtain ⟨he, hrest⟩ := h
      cases hx : endsWithStr e.name ".xml" with
      | false => simp [store_entry_ops, hx, ih hrest]
      | true =>
          have hs : (parseDoc e.content).isSome = true := by
            simp [cleanEntry, hx] at he
            exact he
          obtain ⟨dom, hdom⟩ := Option.isSome_iff_exists.mp hs
          simp [store_entry_ops, hx, hdom, ih hrest]

theorem store_entry_ops_append_clean (law : String) (p : Path) :
    ∀ (pre rest : List ZEntry), pre.all cleanEntry = true →
    store_entry_ops law p (pre ++ rest) =
      ((store_entry_ops law p pre).1 ++ (store_entry_ops law p rest).1,
        (store_entry_ops law p rest).2) := by
  intro pre
  induction pre with
  | nil => intro rest _; simp [store_entry_ops]
  | cons e pre ih =>
      intro rest h
      rw [List.all_cons, Bool.and_eq_true] at h
      obtain ⟨he, hpre⟩ := h
      cases hx : endsWithStr e.name ".xml" with
      | false => simp [store_entry_ops, hx, ih rest hpre]
      | true =>
          have hs : (parseDoc e.content).isSome = true := by
            simp [cleanEntry, hx] at he
            exact he
          obtain ⟨dom, hdom⟩ := Option.isSome_iff_exists.mp hs
          simp [store_entry_ops, hx, hdom, ih rest hpre]

/-- Claim C5 counterexample: with an archive holding an asset entry and
then a malformed structured entry, the unit is Failed, yet the freshly
recreated storage location holds the asset written before the parse
error: the store does leave partially-written content on this error
path. -/
theorem malformed_document_counterexample :
    (download_and_store (getBody (Body.zipArchive badXmlArchive)) demoRoot "aaa").outcome =
      Outcome.failed ∧
    (runFS (getBody (Body.zipArchive badXmlArchive)) demoRoot "aaa" emptyFS).file
      ["laws", "a", "aaa", "readme.txt"] = some "hello" := by
  decide

/-- Claim C5 (corrected): an entry whose markup fails to parse raises
out of store, the unit is recorded Failed, and nothing is written for
the malformed entry or any later entry; but the operations already
performed stand: the prior contents were removed, the directory
recreated, and every entry before the malformed one was written, so
partial output can remain for that identifier. -/
theorem malformed_document_failed (get : Nat → ReqResult) (root : Path) (law : String)
    (st : Nat) (pre post : List ZEntry) (e : ZEntry)
    (h0 : get 0 = ReqResult.ok st (Body.zipArchive (pre ++ e :: post)))
    (hpre : pre.all cleanEntry = true)
    (hxml : endsWithStr e.name ".xml" = true)
    (hbad : parseDoc e.content = none) :
    (download_and_store get root law).outcome = Outcome.failed ∧
    (download_and_store get root law).ops =
      FsOp.rm (build_law_path root law) :: FsOp.mkd (build_law_path root law) ::
        (store_entry_ops law (build_law_path root law) pre).1 := by
  have hf := fetch_first_ok get st _ h0
  have hsplit := store_entry_ops_append_clean law (build_law_path root law) pre (e :: post) hpre
  have herr : store_entry_ops law (build_law_path root law) (e :: post) = ([], true) := by
    simp [store_entry_ops, hxml, hbad]
  rw [herr] at hsplit
  have hstore : store root law (pre ++ e :: post) =
      (FsOp.rm (build_law_path root law) :: FsOp.mkd (build_law_path root law) ::
        (store_entry_ops law (build_law_path root law) pre).1, true) := by
    simp [store, hsplit]
  constructor
  · simp [download_and_store, hf, hstore]
  · simp [download_and_store, hf, hstore]

/-- Witness for C5 (corrected) at the two-entry archive. -/
theorem malformed_document_failed_witness :
    (getBody (Body.zipArchive badXmlArchive) 0 =
        ReqResult.ok 200 (Body.zipArchive ([⟨"readme.txt", "hello"⟩] ++ ⟨"law.xml", "<a"⟩ :: [])) ∧
      [ZEntry.mk "readme.txt" "hello"].all cleanEntry = true ∧
      endsWithStr "law.xml" ".xml" = true ∧
      parseDoc "<a" = none) ∧
    (download_and_store (getBody (Body.zipArchive badXmlArchive)) demoRoot "aaa").outcome =
      Outcome.failed :=
  ⟨⟨rfl, by decide, by decide, rfl⟩,
    (malformed_document_failed (getBody (Body.zipArchive badXmlArchive)) demoRoot "aaa" 200
      [⟨"readme.txt", "hello"⟩] [] ⟨"law.xml", "<a"⟩ rfl (by decide) (by decide) rfl).1⟩

/-! ## Canonical file lemmas -/

theorem foldl_overwrite (l : List String) :
    ∀ v : Option String, l.foldl (fun _ c => some c) v = l.getLast?.elim v some := by
  induction l with
  | nil => intro v; rfl
  | cons c l ih =>
      intro v
      rw [List.foldl_cons, ih (some c)]
      cases l with
      | nil => rfl
      | cons d l' =>
          rw [List.getLast?_cons_cons]
          cases hg : (d :: l').getLast? with
          | none => exact absurd (List.getLast?_eq_none_iff.mp hg) (by simp)
          | some x => rfl

theorem canonSeq_cons_skip (e : ZEntry) (rest : List ZEntry) (h : isCanonEntry e = false) :
    canonSeq (e :: rest) = canonSeq rest := by
  simp [canonSeq, h]

theorem canonSeq_cons_canon (e : ZEntry) (rest : List ZEntry) (dom : XNode)
    (hc : isCanonEntry e = true) (hdom : parseDoc e.content = some dom) :
    canonSeq (e :: rest) = prettyDoc dom :: canonSeq rest := by
  simp [canonSeq, hc, hdom]

theorem isCanon_of_not_xml (e : ZEntry) (hx : endsWithStr e.name ".xml" = false) :
    isCanonEntry e = false := by
  simp [isCanonEntry, hx]

theorem isCanon_of_marker (e : ZEntry) (hm : startsWithStr e.name "_" = true) :
    isCanonEntry e = false := by
  simp [isCanonEntry, hm]

theorem isCanon_of_plain (e : ZEntry) (hx : endsWithStr e.name ".xml" = true)
    (hm : startsWithStr e.name "_" = false) : isCanonEntry e = true := by
  simp [isCanonEntry, hx, hm]

theorem store_entry_ops_cons_other (law : String) (p : Path) (e : ZEntry)
    (rest : List ZEntry) (hx : endsWithStr e.name ".xml" = false) :
    store_entry_ops law p (e :: rest) =
      (FsOp.write (p ++ [e.name]) e.content :: (store_entry_ops law p rest).1,
        (store_entry_ops law p rest).2) := by
  simp [store_entry_ops, hx]

theorem store_entry_ops_cons_marker (law : String) (p : Path) (e : ZEntry)
    (rest : List ZEntry) (dom : XNode) (hx : endsWithStr e.name ".xml" = true)
    (hm : startsWithStr e.name "_" = true) (hdom : parseDoc e.content = some dom) :
    store_entry_ops law p (e :: rest) =
      (FsOp.write [e.name] (prettyDoc dom) :: (store_entry_ops law p rest).1,
        (store_entry_ops law p rest).2) := by
  simp [store_entry_ops, hx, hm, hdom]

theorem store_entry_ops_cons_plain (law : String) (p : Path) (e : ZEntry)
    (rest : List ZEntry) (dom : XNode) (hx : endsWithStr e.name ".xml" = true)
    (hm : startsWithStr e.name "_" = false) (hdom : parseDoc e.content = some dom) :
    store_entry_ops law p (e :: rest) =
      (FsOp.write (p ++ [law ++ ".xml"]) (prettyDoc dom) :: (store_entry_ops law p rest).1,
        (store_entry_ops law p rest).2) := by
  simp [store_entry_ops, hx, hm, hdom]

theorem fileFold_store_canon (law : String) (root : Path) :
    ∀ (entries : List ZEntry) (v : Option String), entries.all cleanEntry = true →
    fileFold (store_entry_ops law (build_law_path root law) entries).1 (canonPath root law) v =
      (canonSeq entries).foldl (fun _ c => some c) v := by
  intro entries
  induction entries with
  | nil => intro v _; rfl
  | cons e rest ih =>
      intro v h
      rw [List.all_cons, Bool.and_eq_true] at h
      obtain ⟨he, hrest⟩ := h
      cases hx : endsWithStr e.name ".xml" with
      | false =>
          have hne : canonPath root law ≠ build_law_path root law ++ [e.name] := by
            intro hc
            have h3 : law ++ ".xml" = e.name := append_single_inj _ _ _ hc
            rw [← h3, endsWith_append] at hx
            cases hx
          rw [store_entry_ops_cons_other law _ e rest hx,
            canonSeq_cons_skip e rest (isCanon_of_not_xml e hx), fileFold_cons]
          rw [show opFile (FsOp.write (build_law_path root law ++ [e.name]) e.content)
              (canonPath root law) v = v by simp [opFile, hne]]
          exact ih v hrest
      | true =>
          have hs : (parseDoc e.content).isSome = true := by
            simp [cleanEntry, hx] at he
            exact he
          obtain ⟨dom, hdom⟩ := Option.isSome_iff_exists.mp hs
          cases hm : startsWithStr e.name "_" with
          | true =>
              have hne : canonPath root law ≠ [e.name] := by
                simpa [canonPath] using build_law_path_ne_single root law (law ++ ".xml") e.name
              rw [store_entry_ops_cons_marker law _ e rest dom hx hm hdom,
                canonSeq_cons_skip e rest (isCanon_of_marker e hm), fileFold_cons]
              rw [show opFile (FsOp.write [e.name] (prettyDoc dom)) (canonPath root law) v = v
                by simp [opFile, hne]]
              exact ih v hrest
          | false =>
              rw [store_entry_ops_cons_plain law _ e rest dom hx hm hdom,
                canonSeq_cons_canon e rest dom (isCanon_of_plain e hx hm) hdom, fileFold_cons]
              rw [show opFile (FsOp.write (build_law_path root law ++ [law ++ ".xml"])
                  (prettyDoc dom)) (canonPath root law) v = some (prettyDoc dom)
                by simp [opFile, canonPath]]
              rw [List.foldl_cons]
              exact ih _ hrest

theorem writesTo_skip (q : Path) (op : FsOp) (ops : List FsOp)
    (h : ∀ p c, op = FsOp.write p c → p ≠ q) :
    writesTo q (op :: ops) = writesTo q ops := by
  cases op with
  | rm p => rfl
  | mkd p => rfl
  | write p c => simp [writesTo, h p c rfl]

theorem writesTo_cons_write (q p : Path) (c : String) (ops : List FsOp) :
    writesTo q (FsOp.write p c :: ops) =
      if p = q then c :: writesTo q ops else writesTo q ops := by
  by_cases h : p = q <;> simp [writesTo, h]

theorem writesTo_store_canon (law : String) (root : Path) :
    ∀ entries : List ZEntry, entries.all cleanEntry = true →
    writesTo (canonPath root law) (store_entry_ops law (build_law_path root law) entries).1 =
      canonSeq entries := by
  intro entries
  induction entries with
  | nil => intro _; rfl
  | cons e rest ih =>
      intro h
      rw [List.all_cons, Bool.and_eq_true] at h
      obtain ⟨he, hrest⟩ := h
      cases hx : endsWithStr e.name ".xml" with
      | false =>
          have hne : build_law_path root law ++ [e.name] ≠ canonPath root law := by
            intro hc
            have h3 : e.name = law ++ ".xml" := append_single_inj _ _ _ hc
            rw [h3, endsWith_append] at hx
            cases hx
          rw [store_entry_ops_cons_other law _ e rest hx,
            canonSeq_cons_skip e rest (isCanon_of_not_xml e hx),
            writesTo_cons_write, if_neg hne]
          exact ih hrest
      | true =>
          have hs : (parseDoc e.content).isSome = true := by
            simp [cleanEntry, hx] at he
            exact he
          obtain ⟨dom, hdom⟩ := Option.isSome_iff_exists.mp hs
          cases hm : startsWithStr e.name "_" with
          | true =>
              have hne : ([e.name] : Path) ≠ canonPath root law := by
                intro hc
                exact build_law_path_ne_single root law (law ++ ".xml") e.name hc.symm
              rw [store_entry_ops_cons_marker law _ e rest dom hx hm hdom,
                canonSeq_cons_skip e rest (isCanon_of_marker e hm),
                writesTo_cons_write, if_neg hne]
              exact ih hrest
          | false =>
              rw [store_entry_ops_cons_plain law _ e rest dom hx hm hdom,
                canonSeq_cons_canon e rest dom (isCanon_of_plain e hx hm) hdom,
                writesTo_cons_write, if_pos (by rw [canonPath])]
              rw [ih hrest]

theorem canonSeq_length (entries : List ZEntry) (h : entries.all cleanEntry = true) :
    (canonSeq entries).length = (entries.filter isCanonEntry).length := by
  induction entries with
  | nil => rfl
  | cons e rest ih =>
      rw [List.all_cons, Bool.and_eq_true] at h
      obtain ⟨he, hrest⟩ := h
      cases hc : isCanonEntry e with
      | false =>
          rw [canonSeq_cons_skip e rest hc, List.filter_cons, if_neg (by simp [hc])]
          exact ih hrest
      | true =>
          have hx : endsWithStr e.name ".xml" = true := by
            have h4 := hc
            rw [isCanonEntry, Bool.and_eq_true] at h4
            exact h4.1
          have hs : (parseDoc e.content).isSome = true := by
            simp [cleanEntry, hx] at he
            exact he
          obtain ⟨dom, hdom⟩ := Option.isSome_iff_exists.mp hs
          rw [canonSeq_cons_canon e rest dom hc hdom, List.filter_cons, if_pos (by simp [hc])]
          simp [ih hrest]

/-- The unit result when the first request serves a clean archive. -/
theorem unit_clean_archive (get : Nat → ReqResult) (root : Path) (law : String)
    (st : Nat) (entries : List ZEntry)
    (h0 : get 0 = ReqResult.ok st (Body.zipArchive entries))
    (hclean : entries.all cleanEntry = true) :
    download_and_store get root law =
      ⟨Outcome.stored, 1, [],
        FsOp.rm (build_law_path root law) :: FsOp.mkd (build_law_path root law) ::
          (store_entry_ops law (build_law_path root law) entries).1⟩ := by
  have hf := fetch_first_ok get st _ h0
  have h2 := store_entry_ops_clean law (build_law_path root law) entries hclean
  simp [download_and_store, hf, store, h2]

/-- Final content of the canonical file after a clean stored run: the
last element of the canonical write sequence. -/
theorem runFS_canon_file (get : Nat → ReqResult) (root : Path) (law : String)
    (st : Nat) (entries : List ZEntry) (fs : FS)
    (h0 : get 0 = ReqResult.ok st (Body.zipArchive entries))
    (hclean : entries.all cleanEntry = true) :
    (runFS get root law fs).file (canonPath root law) = (canonSeq entries).getLast? := by
  have hunit := unit_clean_archive get root law st entries h0 hclean
  have hops : (download_and_store get root law).ops =
      FsOp.rm (build_law_path root law) :: FsOp.mkd (build_law_path root law) ::
        (store_entry_ops law (build_law_path root law) entries).1 := by
    rw [hunit]
  have hpfx : (build_law_path root law).isPrefixOf (canonPath root law) = true :=
    List.isPrefixOf_iff_prefix.mpr (List.prefix_append _ _)
  rw [runFS, hops, applyOps_file, fileFold_cons, fileFold_cons]
  rw [show opFile (FsOp.rm (build_law_path root law)) (canonPath root law)
      (fs.file (canonPath root law)) = none by simp [opFile, hpfx]]
  rw [show opFile (FsOp.mkd (build_law_path root law)) (canonPath root law) none = none
    from rfl]
  rw [fileFold_store_canon law root entries none hclean, foldl_overwrite]
  cases hg : (canonSeq entries).getLast? with
  | none => rfl
  | some c => rfl

/-- Claim C10 (confirmed): with two or more non-marker structured
entries, store writes each of their normalizations to the single
canonical path in archive order, and the final content of the canonical
file is the normalization of the last such entry; the earlier ones are
overwritten. -/
theorem last_entry_wins (get : Nat → ReqResult) (root : Path) (law : String)
    (st : Nat) (entries : List ZEntry) (fs : FS)
    (h0 : get 0 = ReqResult.ok st (Body.zipArchive entries))
    (hclean : entries.all cleanEntry = true)
    (htwo : 2 ≤ (entries.filter isCanonEntry).length) :
    writesTo (canonPath root law) (download_and_store get root law).ops = canonSeq entries ∧
    (runFS get root law fs).file (canonPath root law) = (canonSeq entries).getLast? ∧
    2 ≤ (canonSeq entries).length ∧
    (download_and_store get root law).outcome = Outcome.stored := by
  have hunit := unit_clean_archive get root law st entries h0 hclean
  have hpfx : (build_law_path root law).isPrefixOf (canonPath root law) = true :=
    List.isPrefixOf_iff_prefix.mpr (List.prefix_append _ _)
  have hops : (download_and_store get root law).ops =
      FsOp.rm (build_law_path root law) :: FsOp.mkd (build_law_path root law) ::
        (store_entry_ops law (build_law_path root law) entries).1 := by
    rw [hunit]
  refine ⟨?_, ?_, ?_, by rw [hunit]⟩
  · rw [hops]
    rw [writesTo_skip _ _ _ (by intro p c h; cases h),
      writesTo_skip _ _ _ (by intro p c h; cases h)]
    exact writesTo_store_canon law root entries hclean
  · exact runFS_canon_file get root law st entries fs h0 hclean
  · rw [canonSeq_length entries hclean]
    exact htwo

/-- Witness for C10 at a two-entry archive: the canonical file holds the
normalization of the second (last) structured entry. -/
theorem last_entry_wins_witness :
    (getBody (Body.zipArchive twoXmlArchive) 0 =
        ReqResult.ok 200 (Body.zipArchive twoXmlArchive) ∧
      twoXmlArchive.all cleanEntry = true ∧
      2 ≤ (twoXmlArchive.filter isCanonEntry).length) ∧
    (runFS (getBody (Body.zipArchive twoXmlArchive)) demoRoot "qq" emptyFS).file
        (canonPath demoRoot "qq") = (canonSeq twoXmlArchive).getLast? :=
  ⟨⟨rfl, by decide, by decide⟩,
    (last_entry_wins (getBody (Body.zipArchive twoXmlArchive)) demoRoot "qq" 200
      twoXmlArchive emptyFS rfl (by decide) (by decide)).2.1⟩

/-- No write of a clean store loop hits a non-canonical xml name
directly under the law path. -/
theorem fileFold_store_other (law : String) (root : Path) (name : String)
    (hnc : name ≠ law ++ ".xml") (hxname : endsWithStr name ".xml" = true) :
    ∀ (entries : List ZEntry) (v : Option String), entries.all cleanEntry = true →
    fileFold (store_entry_ops law (build_law_path root law) entries).1
      (build_law_path root law ++ [name]) v = v := by
  intro entries
  induction entries with
  | nil => intro v _; rfl
  | cons e rest ih =>
      intro v h
      rw [List.all_cons, Bool.and_eq_true] at h
      obtain ⟨he, hrest⟩ := h
      cases hx : endsWithStr e.name ".xml" with
      | false =>
          have hne : build_law_path root law ++ [name] ≠ build_law_path root law ++ [e.name] := by
            intro hc
            have h3 : name = e.name := append_single_inj _ _ _ hc
            rw [← h3, hxname] at hx
            cases hx
          rw [store_entry_ops_cons_other law _ e rest hx, fileFold_cons]
          rw [show opFile (FsOp.write (build_law_path root law ++ [e.name]) e.content)
              (build_law_path root law ++ [name]) v = v by simp [opFile, hne]]
          exact ih v hrest
      | true =>
          have hs : (parseDoc e.content).isSome = true := by
            simp [cleanEntry, hx] at he
            exact he
          obtain ⟨dom, hdom⟩ := Option.isSome_iff_exists.mp hs
          cases hm : startsWithStr e.name "_" with
          | true =>
              have hne : build_law_path root law ++ [name] ≠ [e.name] :=
                build_law_path_ne_single root law name e.name
              rw [store_entry_ops_cons_marker law _ e rest dom hx hm hdom, fileFold_cons]
              rw [show opFile (FsOp.write [e.name] (prettyDoc dom))
                  (build_law_path root law ++ [name]) v = v by simp [opFile, hne]]
              exact ih v hrest
          | false =>
              have hne : build_law_path root law ++ [name] ≠
                  build_law_path root law ++ [law ++ ".xml"] := by
                intro hc
                exact hnc (append_single_inj _ _ _ hc)
              rw [store_entry_ops_cons_plain law _ e rest dom hx hm hdom, fileFold_cons]
              rw [show opFile (FsOp.write (build_law_path root law ++ [law ++ ".xml"])
                  (prettyDoc dom)) (build_law_path root law ++ [name]) v = v
                by simp [opFile, hne]]
              exact ih v hrest

/-- Claim C6 counterexample: a valid archive whose only structured
entry carries the underscore marker: the unit is Stored, yet the
post-run storage location has no canonical aaa.xml file, refuting the
claim for archives with at least one structured entry. -/
theorem unique_canonical_counterexample :
    (download_and_store (getBody (Body.zipArchive markerArchive)) demoRoot "aaa").outcome =
      Outcome.stored ∧
    endsWithStr "_x.xml" ".xml" = true ∧
    (runFS (getBody (Body.zipArchive markerArchive)) demoRoot "aaa" emptyFS).file
      (canonPath demoRoot "aaa") = none := by
  decide

/-- Claim C6 (corrected): for a valid archive in which every structured
entry parses and at least one structured entry does not carry the
underscore marker, store fully removes prior contents at
root/first-char/law before writing (the final contents under the
location are independent of the starting filesystem), the canonical file
law.xml exists afterwards, and it is the only file directly under the
location whose name ends in .xml. -/
theorem replace_and_unique_canonical (get : Nat → ReqResult) (root : Path) (law : String)
    (st : Nat) (entries : List ZEntry) (fs : FS)
    (h0 : get 0 = ReqResult.ok st (Body.zipArchive entries))
    (hclean : entries.all cleanEntry = true)
    (hsome : entries.any isCanonEntry = true) :
    (∀ (q : Path) (fs1 fs2 : FS), (build_law_path root law).isPrefixOf q = true →
      (runFS get root law fs1).file q = (runFS get root law fs2).file q) ∧
    ((runFS get root law fs).file (canonPath root law)).isSome = true ∧
    (∀ (name : String) (c : String),
      (runFS get root law fs).file (build_law_path root law ++ [name]) = some c →
      endsWithStr name ".xml" = true → name = law ++ ".xml") := by
  have hunit := unit_clean_archive get root law st entries h0 hclean
  have hops : (download_and_store get root law).ops =
      FsOp.rm (build_law_path root law) :: FsOp.mkd (build_law_path root law) ::
        (store_entry_ops law (build_law_path root law) entries).1 := by
    rw [hunit]
  refine ⟨?_, ?_, ?_⟩
  · intro q fs1 fs2 hq
    rw [runFS, runFS, hops, applyOps_file, applyOps_file, fileFold_cons, fileFold_cons,
      fileFold_cons, fileFold_cons]
    rw [show opFile (FsOp.rm (build_law_path root law)) q (fs1.file q) = none
      by simp [opFile, hq]]
    rw [show opFile (FsOp.rm (build_law_path root law)) q (fs2.file q) = none
      by simp [opFile, hq]]
  · rw [runFS_canon_file get root law st entries fs h0 hclean]
    obtain ⟨e, hmem, hce⟩ := List.any_eq_true.mp hsome
    have hfil : e ∈ entries.filter isCanonEntry := List.mem_filter.mpr ⟨hmem, hce⟩
    have hfne : entries.filter isCanonEntry ≠ [] := List.ne_nil_of_mem hfil
    have hlen : 0 < (canonSeq entries).length := by
      rw [canonSeq_length entries hclean]
      exact List.length_pos.mpr hfne
    have hne : canonSeq entries ≠ [] := by
      intro hcontr
      rw [hcontr] at hlen
      simp at hlen
    cases hg : (canonSeq entries).getLast? with
    | none => exact absurd (List.getLast?_eq_none_iff.mp hg) hne
    | some c => rfl
  · intro name c hfile hxname
    by_cases hn : name = law ++ ".xml"
    · exact hn
    · exfalso
      have hpfx : (build_law_path root law).isPrefixOf
          (build_law_path root law ++ [name]) = true :=
        List.isPrefixOf_iff_prefix.mpr (List.prefix_append _ _)
      have hnone : (runFS get root law fs).file (build_law_path root law ++ [name]) = none := by
        rw [runFS, hops, applyOps_file, fileFold_cons, fileFold_cons]
        rw [show opFile (FsOp.rm (build_law_path root law))
            (build_law_path root law ++ [name])
            (fs.file (build_law_path root law ++ [name])) = none by simp [opFile, hpfx]]
        rw [show opFile (FsOp.mkd (build_law_path root law))
            (build_law_path root law ++ [name]) none = none from rfl]
        exact fileFold_store_other law root name hn hxname entries none hclean
      rw [hnone] at hfile
      cases hfile

/-- Witness for C6 (corrected) at a mixed archive. -/
theorem replace_and_unique_canonical_witness :
    (getBody (Body.zipArchive mixedArchive) 0 =
        ReqResult.ok 200 (Body.zipArchive mixedArchive) ∧
      mixedArchive.all cleanEntry = true ∧
      mixedArchive.any isCanonEntry = true) ∧
    ((runFS (getBody (Body.zipArchive mixedArchive)) demoRoot "aaa" emptyFS).file
        (canonPath demoRoot "aaa")).isSome = true :=
  ⟨⟨rfl, by decide, by decide⟩,
    (replace_and_unique_canonical (getBody (Body.zipArchive mixedArchive)) demoRoot "aaa"
      200 mixedArchive emptyFS rfl (by decide) (by decide)).2.1⟩

/-- Claim C9 counterexample: the underscore-marked structured entry is
neither written under the storage location nor written verbatim: the
location has no file for it, and the file created at the bare relative
name holds the prettified serialization, not the original bytes. -/
theorem marker_verbatim_counterexample :
    (runFS (getBody (Body.zipArchive markerArchive)) demoRoot "aaa" emptyFS).file
      ["laws", "a", "aaa", "_x.xml"] = none ∧
    (runFS (getBody (Body.zipArchive markerArchive)) demoRoot "aaa" emptyFS).file
      ["_x.xml"] = some (prettyDoc (XNode.elem "a" [] [])) ∧
    prettyDoc (XNode.elem "a" [] []) ≠ "<a/>" := by
  decide

/-- Claim C9 (corrected): for an archive entry whose name ends in .xml
and starts with the underscore marker, store does keep the original
entry name instead of renaming to law.xml, but it writes the normalized
(prettified) content, not the verbatim bytes, and the open call uses the
bare entry name — a path relative to the working directory, outside the
identifier's storage location. -/
theorem marker_entry_relative_write (root : Path) (law : String)
    (pre post : List ZEntry) (e : ZEntry) (d : XNode)
    (hpre : pre.all cleanEntry = true)
    (hxml : endsWithStr e.name ".xml" = true)
    (hmark : startsWithStr e.name "_" = true)
    (hparse : parseDoc e.content = some d) :
    (store_entry_ops law (build_law_path root law) (pre ++ e :: post)).1 =
      (store_entry_ops law (build_law_path root law) pre).1 ++
        FsOp.write [e.name] (prettyDoc d) ::
          (store_entry_ops law (build_law_path root law) post).1 ∧
    (build_law_path root law).isPrefixOf [e.name] = false := by
  constructor
  · have hsplit := store_entry_ops_append_clean law (build_law_path root law) pre
      (e :: post) hpre
    rw [store_entry_ops_cons_marker law _ e post d hxml hmark hparse] at hsplit
    rw [hsplit]
  · rw [← Bool.not_eq_true, List.isPrefixOf_iff_prefix]
    intro hpfx
    have hle := hpfx.length_le
    simp [build_law_path] at hle

/-! ## Character class and scanner lemmas -/

theorem strmk_data (s : String) : String.mk s.data = s := rfl

theorem strmk_append (s t : String) : String.mk (s.data ++ t.data) = s ++ t := rfl

theorem data_ne_nil (s : String) (h : s.data ≠ []) : s ≠ "" := by
  intro hc
  rw [hc] at h
  exact h rfl

theorem ws_char_facts (c : Char) (h : isWSChar c = true) :
    c ≠ '<' ∧ c ≠ '&' ∧ c ≠ '"' ∧ c ≠ '>' := by
  refine ⟨?_, ?_, ?_, ?_⟩ <;> intro hc <;> subst hc <;> exact absurd h (by decide)

theorem name_char_facts (c : Char) (h : isNameChar c = true) :
    c ≠ '/' ∧ c ≠ '>' ∧ c ≠ '=' ∧ isWSChar c = false := by
  refine ⟨?_, ?_, ?_, ?_⟩
  · intro hc; subst hc; exact absurd h (by decide)
  · intro hc; subst hc; exact absurd h (by decide)
  · intro hc; subst hc; exact absurd h (by decide)
  · cases hws : isWSChar c with
    | false => rfl
    | true =>
        exfalso
        have hdis : ((c = ' ' ∨ c = '\n') ∨ c = '\t') ∨ c = '\r' := by
          simpa [isWSChar] using hws
        rcases hdis with ((rfl | rfl) | rfl) | rfl <;> exact absurd h (by decide)

theorem dropWSL_cons_ws (c : Char) (cs : List Char) (h : isWSChar c = true) :
    dropWSL (c :: cs) = dropWSL cs := by
  rw [dropWSL.eq_def]
  simp [h]

theorem dropWSL_cons_not (c : Char) (cs : List Char) (h : isWSChar c = false) :
    dropWSL (c :: cs) = c :: cs := by
  rw [dropWSL.eq_def]
  simp [h]

theorem dropWSL_ws_append : ∀ (W cs : List Char), W.all isWSChar = true →
    dropWSL (W ++ cs) = dropWSL cs := by
  intro W
  induction W with
  | nil => intro cs _; rfl
  | cons c W ih =>
      intro cs h
      rw [List.all_cons, Bool.and_eq_true] at h
      rw [List.cons_append, dropWSL_cons_ws c _ h.1]
      exact ih cs h.2

theorem takeNameL_cons_name (c : Char) (cs : List Char) (h : isNameChar c = true) :
    takeNameL (c :: cs) = (c :: (takeNameL cs).1, (takeNameL cs).2) := by
  rw [takeNameL.eq_def]
  simp [h]

theorem takeNameL_cons_not (c : Char) (cs : List Char) (h : isNameChar c = false) :
    takeNameL (c :: cs) = ([], c :: cs) := by
  rw [takeNameL.eq_def]
  simp [h]

theorem takeNameL_skip : ∀ (nm : List Char) (c : Char) (cs : List Char),
    nm.all isNameChar = true → isNameChar c = false →
    takeNameL (nm ++ c :: cs) = (nm, c :: cs) := by
  intro nm
  induction nm with
  | nil => intro c cs _ hc; simpa using takeNameL_cons_not c cs hc
  | cons d nm ih =>
      intro c cs h hc
      rw [List.all_cons, Bool.and_eq_true] at h
      rw [List.cons_append, takeNameL_cons_name d _ h.1, ih c cs h.2 hc]

theorem takeTextL_lt (R : List Char) : takeTextL ('<' :: R) = some ([], '<' :: R) := by
  rw [takeTextL.eq_def]
  simp

theorem takeTextL_plain_cons (c : Char) (rest : List Char) (h1 : c ≠ '<') (h2 : c ≠ '&') :
    takeTextL (c :: rest) = (takeTextL rest).map (fun pr => (c :: pr.1, pr.2)) := by
  rw [takeTextL.eq_def]
  simp [h1, h2]

theorem takeTextL_plain : ∀ (W R : List Char), (∀ c ∈ W, c ≠ '<' ∧ c ≠ '&') →
    takeTextL (W ++ '<' :: R) = some (W, '<' :: R) := by
  intro W
  induction W with
  | nil => intro R _; exact takeTextL_lt R
  | cons c W ih =>
      intro R h
      have hc := h c (List.mem_cons_self c W)
      rw [List.cons_append, takeTextL_plain_cons c _ hc.1 hc.2,
        ih R (fun d hd => h d (List.mem_cons_of_mem c hd))]
      rfl

theorem escapeL_append (a b : List Char) : escapeL (a ++ b) = escapeL a ++ escapeL b := by
  induction a with
  | nil => rfl
  | cons c a ih => simp [escapeL, ih, List.append_assoc]

theorem escapeL_plain : ∀ (W : List Char),
    (∀ c ∈ W, c ≠ '&' ∧ c ≠ '<' ∧ c ≠ '"' ∧ c ≠ '>') → escapeL W = W := by
  intro W
  induction W with
  | nil => intro _; rfl
  | cons c W ih =>
      intro h
      have hc := h c (List.mem_cons_self c W)
      show escapeChar c ++ escapeL W = c :: W
      rw [show escapeChar c = [c] by
        simp [escapeChar, hc.1, hc.2.1, hc.2.2.1, hc.2.2.2]]
      rw [ih (fun d hd => h d (List.mem_cons_of_mem c hd))]
      rfl

theorem escapeL_ws (W : List Char) (h : W.all isWSChar = true) : escapeL W = W := by
  refine escapeL_plain W (fun c hc => ?_)
  have hw := ws_char_facts c (by
    rw [List.all_eq_true] at h
    exact h c hc)
  exact ⟨hw.2.1, hw.1, hw.2.2.1, hw.2.2.2⟩

theorem takeTextL_escape : ∀ (X R : List Char),
    takeTextL (escapeL X ++ '<' :: R) = some (X, '<' :: R) := by
  intro X
  induction X with
  | nil => intro R; exact takeTextL_lt R
  | cons c X ih =>
      intro R
      show takeTextL ((escapeChar c ++ escapeL X) ++ '<' :: R) = _
      rw [List.append_assoc]
      by_cases h1 : c = '&'
      · subst h1
        show takeTextL ('&' :: 'a' :: 'm' :: 'p' :: ';' :: (escapeL X ++ '<' :: R)) = _
        rw [takeTextL.eq_def]
        simp [ih R]
      · by_cases h2 : c = '<'
        · subst h2
          show takeTextL ('&' :: 'l' :: 't' :: ';' :: (escapeL X ++ '<' :: R)) = _
          rw [takeTextL.eq_def]
          simp [ih R]
        · by_cases h3 : c = '"'
          · subst h3
            show takeTextL ('&' :: 'q' :: 'u' :: 'o' :: 't' :: ';' :: (escapeL X ++ '<' :: R)) = _
            rw [takeTextL.eq_def]
            simp [ih R]
          · by_cases h4 : c = '>'
            · subst h4
              show takeTextL ('&' :: 'g' :: 't' :: ';' :: (escapeL X ++ '<' :: R)) = _
              rw [takeTextL.eq_def]
              simp [ih R]
            · rw [show escapeChar c = [c] by simp [escapeChar, h1, h2, h3, h4]]
              rw [List.singleton_append, takeTextL_plain_cons c _ h2 h1, ih R]
              rfl

theorem takeAttrValL_close (R : List Char) : takeAttrValL ('"' :: R) = some ([], R) := by
  rw [takeAttrValL.eq_def]
  simp

theorem takeAttrValL_plain_cons (c : Char) (rest : List Char)
    (h0 : c ≠ '"') (h1 : c ≠ '<') (h2 : c ≠ '&') :
    takeAttrValL (c :: rest) = (takeAttrValL rest).map (fun pr => (c :: pr.1, pr.2)) := by
  rw [takeAttrValL.eq_def]
  simp [h0, h1, h2]

theorem takeAttrValL_escape : ∀ (X R : List Char),
    takeAttrValL (escapeL X ++ '"' :: R) = some (X, R) := by
  intro X
  induction X with
  | nil => intro R; exact takeAttrValL_close R
  | cons c X ih =>
      intro R
      show takeAttrValL ((escapeChar c ++ escapeL X) ++ '"' :: R) = _
      rw [List.append_assoc]
      by_cases h1 : c = '&'
      · subst h1
        show takeAttrValL ('&' :: 'a' :: 'm' :: 'p' :: ';' :: (escapeL X ++ '"' :: R)) = _
        rw [takeAttrValL.eq_def]
        simp [ih R]
      · by_cases h2 : c = '<'
        · subst h2
          show takeAttrValL ('&' :: 'l' :: 't' :: ';' :: (escapeL X ++ '"' :: R)) = _
          rw [takeAttrValL.eq_def]
          simp [ih R]
        · by_cases h3 : c = '"'
          · subst h3
            show takeAttrValL ('&' :: 'q' :: 'u' :: 'o' :: 't' :: ';' :: (escapeL X ++ '"' :: R)) = _
            rw [takeAttrValL.eq_def]
            simp [ih R]
          · by_cases h4 : c = '>'
            · subst h4
              show takeAttrValL ('&' :: 'g' :: 't' :: ';' :: (escapeL X ++ '"' :: R)) = _
              rw [takeAttrValL.eq_def]
              simp [ih R]
            · rw [show escapeChar c = [c] by simp [escapeChar, h1, h2, h3, h4]]
              rw [List.singleton_append, takeAttrValL_plain_cons c _ h3 h2 h1, ih R]
              rfl

theorem nameOK_spec (s : String) (h : nameOK s = true) :
    s.data ≠ [] ∧ s.data.all isNameChar = true := by
  rw [nameOK, Bool.and_eq_true] at h
  refine ⟨?_, h.2⟩
  have h1 := h.1
  simp at h1
  intro hc
  rw [hc] at h1
  exact absurd rfl h1

theorem attrsL_cons_length (n v : String) (rest : List (String × String)) :
    (attrsL ((n, v) :: rest)).length =
      n.data.length + (escapeL v.data).length + 4 + (attrsL rest).length := by
  simp [attrsL]
  omega

theorem parseAttrsF_spec : ∀ (attrs : List (String × String)) (fuel : Nat) (c : Char)
    (cs : List Char),
    attrs.all (fun p => nameOK p.1) = true → (c = '/' ∨ c = '>') →
    (attrsL attrs).length < fuel →
    parseAttrsF fuel (attrsL attrs ++ c :: cs) = some (attrs, c :: cs) := by
  intro attrs
  induction attrs with
  | nil =>
      intro fuel c cs _ hc hfuel
      cases fuel with
      | zero => omega
      | succ f =>
          have hws : isWSChar c = false := by rcases hc with rfl | rfl <;> decide
          show parseAttrsF (f + 1) (c :: cs) = some ([], c :: cs)
          rw [parseAttrsF.eq_def]
          simp [dropWSL_cons_not c cs hws, hc]
  | cons a attrs ih =>
      intro fuel c cs hall hc hfuel
      obtain ⟨n, v⟩ := a
      rw [List.all_cons, Bool.and_eq_true] at hall
      obtain ⟨hn, hall'⟩ := hall
      obtain ⟨hne, hchars⟩ := nameOK_spec n hn
      cases fuel with
      | zero =>
          exfalso
          have := attrsL_cons_length n v attrs
          omega
      | succ f =>
          cases hdata : n.data with
          | nil => exact absurd hdata hne
          | cons d nd =>
              have hd : isNameChar d = true := by
                rw [hdata, List.all_cons, Bool.and_eq_true] at hchars
                exact hchars.1
              have hfacts := name_char_facts d hd
              have hneor : ¬(d = '/' ∨ d = '>') := by
                rintro (rfl | rfl)
                · exact hfacts.1 rfl
                · exact hfacts.2.1 rfl
              have hinput : attrsL ((n, v) :: attrs) ++ c :: cs =
                  ' ' :: (n.data ++ ('=' :: '"' ::
                    (escapeL v.data ++ ('"' :: (attrsL attrs ++ c :: cs))))) := by
                simp [attrsL]
              have h1 : dropWSL (' ' :: (n.data ++ ('=' :: '"' ::
                  (escapeL v.data ++ ('"' :: (attrsL attrs ++ c :: cs)))))) =
                  d :: (nd ++ ('=' :: '"' ::
                    (escapeL v.data ++ ('"' :: (attrsL attrs ++ c :: cs))))) := by
                rw [dropWSL_cons_ws _ _ (by decide), hdata, List.cons_append,
                  dropWSL_cons_not _ _ hfacts.2.2.2]
              have hname : takeNameL (d :: (nd ++ ('=' :: '"' ::
                  (escapeL v.data ++ ('"' :: (attrsL attrs ++ c :: cs)))))) =
                  (n.data, '=' :: '"' ::
                    (escapeL v.data ++ ('"' :: (attrsL attrs ++ c :: cs)))) := by
                rw [show d :: (nd ++ ('=' :: '"' ::
                    (escapeL v.data ++ ('"' :: (attrsL attrs ++ c :: cs))))) =
                    n.data ++ '=' :: ('"' ::
                      (escapeL v.data ++ ('"' :: (attrsL attrs ++ c :: cs)))) by
                  rw [hdata]
                  rfl]
                exact takeNameL_skip n.data '=' _ hchars (by decide)
              have hval : takeAttrValL (escapeL v.data ++ ('"' :: (attrsL attrs ++ c :: cs))) =
                  some (v.data, attrsL attrs ++ c :: cs) := takeAttrValL_escape v.data _
              have hrec : parseAttrsF f (attrsL attrs ++ c :: cs) = some (attrs, c :: cs) := by
                apply ih f c cs hall' hc
                rw [attrsL_cons_length] at hfuel
                omega
              rw [hinput, parseAttrsF.eq_def]
              simp [h1, hname, hneor, hne, hval, hrec, strmk_data]

/-- Witness for C9 (corrected) at the marker archive. -/
theorem marker_entry_relative_write_witness :
    (([] : List ZEntry).all cleanEntry = true ∧
      endsWithStr "_x.xml" ".xml" = true ∧
      startsWithStr "_x.xml" "_" = true ∧
      parseDoc "<a/>" = some (XNode.elem "a" [] [])) ∧
    (store_entry_ops "aaa" (build_law_path demoRoot "aaa") ([] ++ ⟨"_x.xml", "<a/>"⟩ :: [])).1 =
      (store_entry_ops "aaa" (build_law_path demoRoot "aaa") []).1 ++
        FsOp.write ["_x.xml"] (prettyDoc (XNode.elem "a" [] [])) ::
          (store_entry_ops "aaa" (build_law_path demoRoot "aaa") []).1 :=
  ⟨⟨by decide, by decide, by decide, rfl⟩,
    (marker_entry_relative_write demoRoot "aaa" [] [] ⟨"_x.xml", "<a/>"⟩
      (XNode.elem "a" [] []) (by decide) (by decide) (by decide) rfl).1⟩

/-! ## Leaf parsing lemmas for written output -/

theorem takeName_after_tag (tag : String) (attrs : List (String × String)) (c : Char)
    (cs : List Char) (htag : nameOK tag = true) (hc : isNameChar c = false) :
    takeNameL (tag.data ++ (attrsL attrs ++ c :: cs)) =
      (tag.data, attrsL attrs ++ c :: cs) := by
  obtain ⟨hne, hchars⟩ := nameOK_spec tag htag
  cases attrs with
  | nil =>
      show takeNameL (tag.data ++ ([] ++ c :: cs)) = _
      rw [List.nil_append]
      exact takeNameL_skip tag.data c cs hchars hc
  | cons a attrs =>
      obtain ⟨n, v⟩ := a
      have h2 := takeNameL_skip tag.data ' '
        ((n.data ++ '=' :: '"' :: (escapeL v.data ++ '"' :: attrsL attrs)) ++ c :: cs)
        hchars (by decide)
      simpa [attrsL, List.append_assoc] using h2

theorem parseNodesF_stop (f : Nat) (r : List Char) (hf : 1 ≤ f) :
    parseNodesF f ('<' :: '/' :: r) = some ([], '<' :: '/' :: r) := by
  cases f with
  | zero => omega
  | succ f =>
      rw [parseNodesF.eq_def]
      simp

theorem escapeL_head (c : Char) (cs : List Char) :
    ∃ d ds, escapeL (c :: cs) = d :: ds ∧ d ≠ '<' := by
  by_cases h1 : c = '&'
  · subst h1; exact ⟨'&', _, rfl, by decide⟩
  · by_cases h2 : c = '<'
    · subst h2; exact ⟨'&', _, rfl, by decide⟩
    · by_cases h3 : c = '"'
      · subst h3; exact ⟨'&', _, rfl, by decide⟩
      · by_cases h4 : c = '>'
        · subst h4; exact ⟨'&', _, rfl, by decide⟩
        · refine ⟨c, escapeL cs, ?_, h2⟩
          show escapeChar c ++ escapeL cs = c :: escapeL cs
          rw [show escapeChar c = [c] by simp [escapeChar, h1, h2, h3, h4]]
          rfl

theorem parseNodesF_single_text (s : String) (hs : s.data ≠ []) (f : Nat) (R : List Char)
    (hf : 2 ≤ f) :
    parseNodesF f (escapeL s.data ++ '<' :: '/' :: R) = some ([.text s], '<' :: '/' :: R) := by
  cases f with
  | zero => omega
  | succ f =>
      obtain ⟨c, cs, hdata⟩ : ∃ c cs, s.data = c :: cs := by
        cases hd2 : s.data with
        | nil => exact absurd hd2 hs
        | cons c2 cs2 => exact ⟨c2, cs2, rfl⟩
      obtain ⟨d, ds, hed, hdne⟩ := escapeL_head c cs
      have hshape : escapeL s.data ++ '<' :: '/' :: R = d :: (ds ++ '<' :: '/' :: R) := by
        rw [hdata, hed]
        rfl
      have htext : takeTextL (d :: (ds ++ '<' :: '/' :: R)) =
          some (s.data, '<' :: '/' :: R) := by
        rw [← hshape]
        exact takeTextL_escape s.data ('/' :: R)
      have hrest : parseNodesF f ('<' :: '/' :: R) = some ([], '<' :: '/' :: R) :=
        parseNodesF_stop f R (by omega)
      rw [hshape, parseNodesF.eq_def]
      simp [hdne, htext, hrest, strmk_data]

theorem ws_all_plain (W : List Char) (hW : W.all isWSChar = true) :
    ∀ c ∈ W, c ≠ '<' ∧ c ≠ '&' := by
  intro c hc
  have h := ws_char_facts c ((List.all_eq_true.mp hW) c hc)
  exact ⟨h.1, h.2.1⟩

theorem parseNodesF_ws_stop (W : List Char) (hW : W.all isWSChar = true) (hne : W ≠ [])
    (f : Nat) (hf : 2 ≤ f) (r : List Char) :
    parseNodesF f (W ++ '<' :: '/' :: r) = some ([.text (String.mk W)], '<' :: '/' :: r) := by
  cases f with
  | zero => omega
  | succ f =>
      cases W with
      | nil => exact absurd rfl hne
      | cons c cs =>
          have hcw := ws_char_facts c (by
            rw [List.all_cons, Bool.and_eq_true] at hW
            exact hW.1)
          have htext : takeTextL ((c :: cs) ++ '<' :: '/' :: r) =
              some (c :: cs, '<' :: '/' :: r) :=
            takeTextL_plain (c :: cs) ('/' :: r) (ws_all_plain (c :: cs) hW)
          have hrest : parseNodesF f ('<' :: '/' :: r) = some ([], '<' :: '/' :: r) :=
            parseNodesF_stop f r (by omega)
          rw [List.cons_append, parseNodesF.eq_def]
          rw [List.cons_append] at htext
          simp [hcw.1, htext, hrest]

theorem parseNodesF_ws_elem (W : List Char) (hW : W.all isWSChar = true) (hne : W ≠ [])
    (f2 : Nat) (d : Char) (cs : List Char) (hd : isNameChar d = true)
    (nd : XNode) (cs2 : List Char) (kids : List XNode) (cs3 : List Char)
    (hE : parseElemF f2 ('<' :: d :: cs) = some (nd, cs2))
    (hK : parseNodesF f2 cs2 = some (kids, cs3)) :
    parseNodesF (f2 + 2) (W ++ '<' :: d :: cs) =
      some (.text (String.mk W) :: nd :: kids, cs3) := by
  cases W with
  | nil => exact absurd rfl hne
  | cons c cs0 =>
      have hcw := ws_char_facts c (by
        rw [List.all_cons, Bool.and_eq_true] at hW
        exact hW.1)
      have htext : takeTextL ((c :: cs0) ++ '<' :: d :: cs) =
          some (c :: cs0, '<' :: d :: cs) :=
        takeTextL_plain (c :: cs0) (d :: cs) (ws_all_plain (c :: cs0) hW)
      have hdne : d ≠ '/' := (name_char_facts d hd).1
      have hinner : parseNodesF (f2 + 1) ('<' :: d :: cs) = some (nd :: kids, cs3) := by
        rw [parseNodesF.eq_def]
        simp [hdne, hE, hK]
      rw [List.cons_append, parseNodesF.eq_def]
      rw [List.cons_append] at htext
      simp [hcw.1, htext, hinner]

theorem parseElemF_nil_kids (tag : String) (attrs : List (String × String))
    (fuel : Nat) (rest : List Char)
    (htag : nameOK tag = true) (hattrs : attrs.all (fun p => nameOK p.1) = true)
    (hfuel : 1 ≤ fuel) :
    parseElemF fuel ('<' :: (tag.data ++ (attrsL attrs ++ '/' :: '>' :: rest))) =
      some (.elem tag attrs [], rest) := by
  cases fuel with
  | zero => omega
  | succ f =>
      have hname := takeName_after_tag tag attrs '/' ('>' :: rest) htag (by decide)
      have hattrsp : parseAttrsF ((attrsL attrs ++ '/' :: '>' :: rest).length + 1)
          (attrsL attrs ++ '/' :: '>' :: rest) = some (attrs, '/' :: '>' :: rest) := by
        apply parseAttrsF_spec attrs _ '/' ('>' :: rest) hattrs (Or.inl rfl)
        simp
        omega
      rw [parseElemF.eq_def]
      simp [hname, hattrsp, nameOK_spec tag htag, strmk_data,
        -List.length_append, -List.length_cons]

theorem parseElemF_text_kid (tag : String) (attrs : List (String × String)) (s : String)
    (fuel : Nat) (rest : List Char)
    (htag : nameOK tag = true) (hattrs : attrs.all (fun p => nameOK p.1) = true)
    (hs : s.data ≠ []) (hfuel : 3 ≤ fuel) :
    parseElemF fuel ('<' :: (tag.data ++ (attrsL attrs ++ '>' ::
        (escapeL s.data ++ '<' :: '/' :: (tag.data ++ '>' :: rest))))) =
      some (.elem tag attrs [.text s], rest) := by
  cases fuel with
  | zero => omega
  | succ f =>
      have hname := takeName_after_tag tag attrs '>'
        (escapeL s.data ++ '<' :: '/' :: (tag.data ++ '>' :: rest)) htag (by decide)
      have hattrsp : parseAttrsF ((attrsL attrs ++ '>' :: (escapeL s.data ++ '<' :: '/' ::
          (tag.data ++ '>' :: rest))).length + 1)
          (attrsL attrs ++ '>' :: (escapeL s.data ++ '<' :: '/' :: (tag.data ++ '>' :: rest))) =
          some (attrs, '>' :: (escapeL s.data ++ '<' :: '/' :: (tag.data ++ '>' :: rest))) := by
        apply parseAttrsF_spec attrs _ '>'
          (escapeL s.data ++ '<' :: '/' :: (tag.data ++ '>' :: rest)) hattrs (Or.inr rfl)
        simp
        omega
      have hbody := parseNodesF_single_text s hs f (tag.data ++ '>' :: rest) (by omega)
      have hclose := takeNameL_skip tag.data '>' rest (nameOK_spec tag htag).2 (by decide)
      rw [parseElemF.eq_def]
      simp [hname, hattrsp, nameOK_spec tag htag, hbody, hclose, strmk_data,
        dropWSL_cons_not '>' rest (by decide), -List.length_append, -List.length_cons]

theorem parseElemF_kids (tag : String) (attrs : List (String × String)) (B : List Char)
    (kidsRes : List XNode) (f : Nat) (rest : List Char)
    (htag : nameOK tag = true) (hattrs : attrs.all (fun p => nameOK p.1) = true)
    (hbody : parseNodesF f (B ++ '<' :: '/' :: (tag.data ++ '>' :: rest)) =
      some (kidsRes, '<' :: '/' :: (tag.data ++ '>' :: rest))) :
    parseElemF (f + 1) ('<' :: (tag.data ++ (attrsL attrs ++ '>' ::
        (B ++ '<' :: '/' :: (tag.data ++ '>' :: rest))))) =
      some (.elem tag attrs kidsRes, rest) := by
  have hname := takeName_after_tag tag attrs '>'
    (B ++ '<' :: '/' :: (tag.data ++ '>' :: rest)) htag (by decide)
  have hattrsp : parseAttrsF ((attrsL attrs ++ '>' :: (B ++ '<' :: '/' ::
      (tag.data ++ '>' :: rest))).length + 1)
      (attrsL attrs ++ '>' :: (B ++ '<' :: '/' :: (tag.data ++ '>' :: rest))) =
      some (attrs, '>' :: (B ++ '<' :: '/' :: (tag.data ++ '>' :: rest))) := by
    apply parseAttrsF_spec attrs _ '>'
      (B ++ '<' :: '/' :: (tag.data ++ '>' :: rest)) hattrs (Or.inr rfl)
    simp
    omega
  have hclose := takeNameL_skip tag.data '>' rest (nameOK_spec tag htag).2 (by decide)
  rw [parseElemF.eq_def]
  simp [hname, hattrsp, nameOK_spec tag htag, hbody, hclose, strmk_data,
    dropWSL_cons_not '>' rest (by decide), -List.length_append, -List.length_cons]

/-! ## Writer equations and tree facts -/



theorem kidsL_nil (ind : String) : kidsL ind [] = [] := by simp [kidsL]

theorem kidsL_cons (ind : String) (k : XNode) (rest : List XNode) :
    kidsL ind (k :: rest) = ind.data ++ coreL ind k ++ '\n' :: kidsL ind rest := by
  simp [kidsL]

theorem coreL_text (ind : String) (s : String) : coreL ind (.text s) = escapeL s.data := by
  simp [coreL]

theorem coreL_elem_nil (ind tag : String) (attrs : List (String × String)) :
    coreL ind (.elem tag attrs []) = '<' :: tag.data ++ attrsL attrs ++ ['/', '>'] := by
  simp [coreL]

theorem coreL_elem_single_text (ind tag s : String) (attrs : List (String × String)) :
    coreL ind (.elem tag attrs [.text s]) =
      '<' :: tag.data ++ attrsL attrs ++ '>' :: escapeL s.data ++
        '<' :: '/' :: tag.data ++ ['>'] := by
  simp [coreL]

theorem coreL_elem_single_elem (ind tag : String) (attrs : List (String × String))
    (t2 : String) (a2 : List (String × String)) (n2 : List XNode) :
    coreL ind (.elem tag attrs [.elem t2 a2 n2]) =
      '<' :: tag.data ++ attrsL attrs ++ '>' :: '\n' ::
        kidsL (ind ++ indentUnit) [.elem t2 a2 n2] ++ ind.data ++
        '<' :: '/' :: tag.data ++ ['>'] := by
  simp [coreL]

theorem coreL_elem_multi (ind tag : String) (attrs : List (String × String))
    (k1 k2 : XNode) (kt : List XNode) :
    coreL ind (.elem tag attrs (k1 :: k2 :: kt)) =
      '<' :: tag.data ++ attrsL attrs ++ '>' :: '\n' ::
        kidsL (ind ++ indentUnit) (k1 :: k2 :: kt) ++ ind.data ++
        '<' :: '/' :: tag.data ++ ['>'] := by
  cases k1 <;> simp [coreL]



theorem Good_elem_name (tag : String) (attrs : List (String × String)) (ks : List XNode)
    (h : Good (.elem tag attrs ks) = true) :
    nameOK tag = true ∧ attrs.all (fun p => nameOK p.1) = true := by
  rw [Good.eq_def] at h
  simp only [Bool.and_eq_true] at h
  exact ⟨h.1.1, h.1.2⟩

theorem Good_elem_single_text (tag s : String) (attrs : List (String × String))
    (h : Good (.elem tag attrs [.text s]) = true) : s.data ≠ [] := by
  rw [Good.eq_def] at h
  simp only [Bool.and_eq_true] at h
  have h2 := h.2
  simp at h2
  intro hc
  rw [hc] at h2
  exact absurd rfl h2

theorem Good_elem_single_elem (tag : String) (attrs : List (String × String))
    (t2 : String) (a2 : List (String × String)) (n2 : List XNode)
    (h : Good (.elem tag attrs [.elem t2 a2 n2]) = true) :
    GoodKids [.elem t2 a2 n2] = true := by
  rw [Good.eq_def] at h
  simp only [Bool.and_eq_true] at h
  exact h.2

theorem Good_elem_multi (tag : String) (attrs : List (String × String))
    (k1 k2 : XNode) (kt : List XNode)
    (h : Good (.elem tag attrs (k1 :: k2 :: kt)) = true) :
    GoodKids (k1 :: k2 :: kt) = true := by
  rw [Good.eq_def] at h
  simp only [Bool.and_eq_true] at h
  have h2 := h.2
  cases k1 <;> exact h2

theorem GoodKids_cons_text (s : String) (rest : List XNode)
    (h : GoodKids (.text s :: rest) = true) :
    s.data ≠ [] ∧ wsOnly s = true ∧ GoodKids rest = true := by
  rw [GoodKids.eq_def] at h
  simp only [Bool.and_eq_true] at h
  refine ⟨?_, h.1.2, h.2⟩
  have h2 := h.1.1
  rw [Good.eq_def] at h2
  simp at h2
  intro hc
  rw [hc] at h2
  exact absurd rfl h2

theorem GoodKids_cons_elem (t2 : String) (a2 : List (String × String)) (n2 : List XNode)
    (rest : List XNode) (h : GoodKids (.elem t2 a2 n2 :: rest) = true) :
    Good (.elem t2 a2 n2) = true ∧ GoodKids rest = true := by
  rw [GoodKids.eq_def] at h
  simp only [Bool.and_eq_true] at h
  exact ⟨h.1.1, h.2⟩

theorem reparse_elem_nil (ind tag : String) (attrs : List (String × String)) :
    reparse ind (.elem tag attrs []) = .elem tag attrs [] := by
  simp [reparse]

theorem reparse_elem_single_text (ind tag s : String) (attrs : List (String × String)) :
    reparse ind (.elem tag attrs [.text s]) = .elem tag attrs [.text s] := by
  simp [reparse]

theorem reparse_elem_single_elem (ind tag : String) (attrs : List (String × String))
    (t2 : String) (a2 : List (String × String)) (n2 : List XNode) :
    reparse ind (.elem tag attrs [.elem t2 a2 n2]) =
      .elem tag attrs (rekids ind (ind ++ indentUnit) "\n" [.elem t2 a2 n2]) := by
  simp [reparse]

theorem reparse_elem_multi (ind tag : String) (attrs : List (String × String))
    (k1 k2 : XNode) (kt : List XNode) :
    reparse ind (.elem tag attrs (k1 :: k2 :: kt)) =
      .elem tag attrs (rekids ind (ind ++ indentUnit) "\n" (k1 :: k2 :: kt)) := by
  cases k1 <;> simp [reparse]

theorem rekids_nil (ind ind2 acc : String) :
    rekids ind ind2 acc [] = [.text (acc ++ ind)] := by
  simp [rekids]

theorem rekids_text (ind ind2 acc s : String) (rest : List XNode) :
    rekids ind ind2 acc (.text s :: rest) =
      rekids ind ind2 (acc ++ ind2 ++ s ++ "\n") rest := by
  simp [rekids]

theorem rekids_elem (ind ind2 acc : String) (t2 : String) (a2 : List (String × String))
    (n2 : List XNode) (rest : List XNode) :
    rekids ind ind2 acc (.elem t2 a2 n2 :: rest) =
      .text (acc ++ ind2) :: reparse ind2 (.elem t2 a2 n2) ::
        rekids ind ind2 "\n" rest := by
  simp [rekids]

theorem wsOnly_append (a b : String) (ha : wsOnly a = true) (hb : wsOnly b = true) :
    wsOnly (a ++ b) = true := by
  rw [wsOnly] at ha hb ⊢
  rw [String.data_append, List.all_append, ha, hb]
  rfl

theorem wsOnly_indentUnit : wsOnly indentUnit = true := by decide

theorem wsOnly_nl : wsOnly "\n" = true := by decide

theorem nl_data_ne : ("\n" : String).data ≠ [] := by decide

theorem append_data_ne (a b : String) (ha : a.data ≠ []) : (a ++ b).data ≠ [] := by
  rw [String.data_append]
  intro h
  exact ha (List.append_eq_nil.mp h).1

theorem tag_len_pos (tag : String) (h : nameOK tag = true) : 1 ≤ tag.length := by
  have h2 := (nameOK_spec tag h).1
  cases tag with
  | mk data =>
      cases data with
      | nil => exact absurd rfl h2
      | cons c cs => simp [String.length]

theorem coreL_elem_len (ind tag : String) (attrs : List (String × String)) (ks : List XNode)
    (htag : nameOK tag = true) : 4 ≤ (coreL ind (.elem tag attrs ks)).length := by
  have htl := tag_len_pos tag htag
  rcases ks with _ | ⟨k1, _ | ⟨k2, kt⟩⟩
  · rw [coreL_elem_nil]
    simp
    omega
  · cases k1 with
    | text s =>
        rw [coreL_elem_single_text]
        simp
        omega
    | elem t2 a2 n2 =>
        rw [coreL_elem_single_elem]
        simp
        omega
  · rw [coreL_elem_multi]
    simp
    omega

theorem coreL_elem_head (ind tag : String) (attrs : List (String × String)) (ks : List XNode)
    (htag : nameOK tag = true) :
    ∃ d cs, coreL ind (.elem tag attrs ks) = '<' :: d :: cs ∧ isNameChar d = true := by
  obtain ⟨hne, hchars⟩ := nameOK_spec tag htag
  obtain ⟨d, nd, hdata⟩ : ∃ d nd, tag.data = d :: nd := by
    cases hd : tag.data with
    | nil => exact absurd hd hne
    | cons d nd => exact ⟨d, nd, rfl⟩
  have hd : isNameChar d = true := by
    rw [hdata, List.all_cons, Bool.and_eq_true] at hchars
    exact hchars.1
  rcases ks with _ | ⟨k1, _ | ⟨k2, kt⟩⟩
  · exact ⟨d, _, by rw [coreL_elem_nil, hdata]; rfl, hd⟩
  · cases k1 with
    | text s => exact ⟨d, _, by rw [coreL_elem_single_text, hdata]; rfl, hd⟩
    | elem t2 a2 n2 => exact ⟨d, _, by rw [coreL_elem_single_elem, hdata]; rfl, hd⟩
  · exact ⟨d, _, by rw [coreL_elem_multi, hdata]; rfl, hd⟩

end Lawde

namespace Lawde

theorem str_len_pos (a : String) (h : a.data ≠ []) : 1 ≤ a.data.length := by
  cases hd : a.data with
  | nil => exact absurd hd h
  | cons c cs => simp

theorem nl_data : ("\n" : String).data = ['\n'] := rfl

theorem data_length (s : String) : s.data.length = s.length := rfl

mutual

theorem parse_print_elem (N : Nat) (tag : String) (attrs : List (String × String))
    (ks : List XNode) (ind : String) (fuel : Nat) (rest : List Char)
    (hN : sizeOf ks < N)
    (hgood : Good (.elem tag attrs ks) = true) (hind : wsOnly ind = true)
    (hfuel : (coreL ind (.elem tag attrs ks)).length + rest.length < fuel) :
    parseElemF fuel (coreL ind (.elem tag attrs ks) ++ rest) =
      some (reparse ind (.elem tag attrs ks), rest) := by
  obtain ⟨htag, hattrs⟩ := Good_elem_name tag attrs ks hgood
  have htl := tag_len_pos tag htag
  rcases ks with _ | ⟨k1, _ | ⟨k2, kt⟩⟩
  · rw [coreL_elem_nil] at hfuel ⊢
    rw [reparse_elem_nil]
    have hinput : ('<' :: tag.data ++ attrsL attrs ++ ['/', '>']) ++ rest =
        '<' :: (tag.data ++ (attrsL attrs ++ '/' :: '>' :: rest)) := by simp
    rw [hinput]
    exact parseElemF_nil_kids tag attrs fuel rest htag hattrs (by omega)
  · cases k1 with
    | text s =>
        have hs := Good_elem_single_text tag s attrs hgood
        rw [coreL_elem_single_text] at hfuel ⊢
        rw [reparse_elem_single_text]
        have hinput : ('<' :: tag.data ++ attrsL attrs ++ '>' :: escapeL s.data ++
            '<' :: '/' :: tag.data ++ ['>']) ++ rest =
            '<' :: (tag.data ++ (attrsL attrs ++ '>' ::
              (escapeL s.data ++ '<' :: '/' :: (tag.data ++ '>' :: rest)))) := by simp
        rw [hinput]
        apply parseElemF_text_kid tag attrs s fuel rest htag hattrs hs
        simp at hfuel
        omega
    | elem t2 a2 n2 =>
        have hkg : GoodKids [XNode.elem t2 a2 n2] = true :=
          Good_elem_single_elem tag attrs t2 a2 n2 hgood
        rw [coreL_elem_single_elem] at hfuel ⊢
        rw [reparse_elem_single_elem]
        have hinput : ('<' :: tag.data ++ attrsL attrs ++ '>' :: '\n' ::
            kidsL (ind ++ indentUnit) [XNode.elem t2 a2 n2] ++ ind.data ++
            '<' :: '/' :: tag.data ++ ['>']) ++ rest =
            '<' :: (tag.data ++ (attrsL attrs ++ '>' ::
              (('\n' :: (kidsL (ind ++ indentUnit) [XNode.elem t2 a2 n2] ++ ind.data)) ++
                '<' :: '/' :: (tag.data ++ '>' :: rest)))) := by simp
        rw [hinput]
        have hbody : parseNodesF (fuel - 1) (("\n" : String).data ++
            (kidsL (ind ++ indentUnit) [XNode.elem t2 a2 n2] ++
              (ind.data ++ '<' :: '/' :: (tag.data ++ '>' :: rest)))) =
            some (rekids ind (ind ++ indentUnit) "\n" [XNode.elem t2 a2 n2],
              '<' :: '/' :: (tag.data ++ '>' :: rest)) := by
          apply parse_print_kids N [XNode.elem t2 a2 n2] ind (ind ++ indentUnit) "\n" (fuel - 1)
            (tag.data ++ '>' :: rest) hN hkg hind
            (wsOnly_append ind indentUnit hind wsOnly_indentUnit) wsOnly_nl nl_data_ne
          rw [nl_data]
          simp at hfuel ⊢
          omega
        have hbody2 : parseNodesF (fuel - 1)
            (('\n' :: (kidsL (ind ++ indentUnit) [XNode.elem t2 a2 n2] ++ ind.data)) ++
              '<' :: '/' :: (tag.data ++ '>' :: rest)) =
            some (rekids ind (ind ++ indentUnit) "\n" [XNode.elem t2 a2 n2],
              '<' :: '/' :: (tag.data ++ '>' :: rest)) := by
          rw [nl_data] at hbody
          rw [show ('\n' :: (kidsL (ind ++ indentUnit) [XNode.elem t2 a2 n2] ++ ind.data)) ++
              '<' :: '/' :: (tag.data ++ '>' :: rest) =
              ['\n'] ++ (kidsL (ind ++ indentUnit) [XNode.elem t2 a2 n2] ++
                (ind.data ++ '<' :: '/' :: (tag.data ++ '>' :: rest))) by simp]
          exact hbody
        have hfin := parseElemF_kids tag attrs
          ('\n' :: (kidsL (ind ++ indentUnit) [XNode.elem t2 a2 n2] ++ ind.data))
          (rekids ind (ind ++ indentUnit) "\n" [XNode.elem t2 a2 n2]) (fuel - 1) rest
          htag hattrs hbody2
        rw [show fuel - 1 + 1 = fuel by simp at hfuel; omega] at hfin
        exact hfin
  · have hkg : GoodKids (k1 :: k2 :: kt) = true :=
      Good_elem_multi tag attrs k1 k2 kt hgood
    rw [coreL_elem_multi] at hfuel ⊢
    rw [reparse_elem_multi]
    have hinput : ('<' :: tag.data ++ attrsL attrs ++ '>' :: '\n' ::
        kidsL (ind ++ indentUnit) (k1 :: k2 :: kt) ++ ind.data ++
        '<' :: '/' :: tag.data ++ ['>']) ++ rest =
        '<' :: (tag.data ++ (attrsL attrs ++ '>' ::
          (('\n' :: (kidsL (ind ++ indentUnit) (k1 :: k2 :: kt) ++ ind.data)) ++
            '<' :: '/' :: (tag.data ++ '>' :: rest)))) := by simp
    rw [hinput]
    have hbody : parseNodesF (fuel - 1) (("\n" : String).data ++
        (kidsL (ind ++ indentUnit) (k1 :: k2 :: kt) ++
          (ind.data ++ '<' :: '/' :: (tag.data ++ '>' :: rest)))) =
        some (rekids ind (ind ++ indentUnit) "\n" (k1 :: k2 :: kt),
          '<' :: '/' :: (tag.data ++ '>' :: rest)) := by
      apply parse_print_kids N (k1 :: k2 :: kt) ind (ind ++ indentUnit) "\n" (fuel - 1)
        (tag.data ++ '>' :: rest) hN hkg hind
        (wsOnly_append ind indentUnit hind wsOnly_indentUnit) wsOnly_nl nl_data_ne
      rw [nl_data]
      simp at hfuel ⊢
      omega
    have hbody2 : parseNodesF (fuel - 1)
        (('\n' :: (kidsL (ind ++ indentUnit) (k1 :: k2 :: kt) ++ ind.data)) ++
          '<' :: '/' :: (tag.data ++ '>' :: rest)) =
        some (rekids ind (ind ++ indentUnit) "\n" (k1 :: k2 :: kt),
          '<' :: '/' :: (tag.data ++ '>' :: rest)) := by
      rw [nl_data] at hbody
      rw [show ('\n' :: (kidsL (ind ++ indentUnit) (k1 :: k2 :: kt) ++ ind.data)) ++
          '<' :: '/' :: (tag.data ++ '>' :: rest) =
          ['\n'] ++ (kidsL (ind ++ indentUnit) (k1 :: k2 :: kt) ++
            (ind.data ++ '<' :: '/' :: (tag.data ++ '>' :: rest))) by simp]
      exact hbody
    have hfin := parseElemF_kids tag attrs
      ('\n' :: (kidsL (ind ++ indentUnit) (k1 :: k2 :: kt) ++ ind.data))
      (rekids ind (ind ++ indentUnit) "\n" (k1 :: k2 :: kt)) (fuel - 1) rest
      htag hattrs hbody2
    rw [show fuel - 1 + 1 = fuel by simp at hfuel; omega] at hfin
    exact hfin
termination_by 2 * N + 1
decreasing_by
  all_goals simp_wf
  all_goals omega

theorem parse_print_kids (N : Nat) (ks : List XNode) (ind ind2 acc : String)
    (fuel : Nat) (r : List Char)
    (hN : sizeOf ks < N)
    (hgood : GoodKids ks = true) (hind : wsOnly ind = true) (hind2 : wsOnly ind2 = true)
    (hacc : wsOnly acc = true) (haccne : acc.data ≠ [])
    (hfuel : (acc.data ++ kidsL ind2 ks ++ ind.data).length + 2 + r.length + 1 < fuel) :
    parseNodesF fuel (acc.data ++ (kidsL ind2 ks ++ (ind.data ++ '<' :: '/' :: r))) =
      some (rekids ind ind2 acc ks, '<' :: '/' :: r) := by
  have hacc1 := str_len_pos acc haccne
  have hacc2 : 1 ≤ acc.length := hacc1
  rcases ks with _ | ⟨k1, rest'⟩
  · rw [rekids_nil]
    have hinput : acc.data ++ (kidsL ind2 [] ++ (ind.data ++ '<' :: '/' :: r)) =
        (acc.data ++ ind.data) ++ '<' :: '/' :: r := by
      rw [kidsL_nil]
      simp
    rw [hinput]
    have hW : (acc.data ++ ind.data).all isWSChar = true := by
      rw [List.all_append]
      rw [wsOnly] at hacc hind
      rw [hacc, hind]
      rfl
    have hWne : acc.data ++ ind.data ≠ [] := by
      intro h
      exact haccne (List.append_eq_nil.mp h).1
    rw [parseNodesF_ws_stop (acc.data ++ ind.data) hW hWne fuel (by
      rw [kidsL_nil] at hfuel
      simp at hfuel
      omega) r]
    rw [← String.data_append, strmk_data]
  · cases k1 with
    | text s =>
        simp only [List.cons.sizeOf_spec, XNode.text.sizeOf_spec] at hN
        have hNr : sizeOf rest' < N - 1 := by omega
        have hN1 : 1 ≤ N := by omega
        obtain ⟨hsne, hsws, hrest⟩ := GoodKids_cons_text s rest' hgood
        rw [rekids_text]
        have hesc : escapeL s.data = s.data := escapeL_ws s.data (by rwa [wsOnly] at hsws)
        have hinput : acc.data ++ (kidsL ind2 (.text s :: rest') ++
            (ind.data ++ '<' :: '/' :: r)) =
            (acc ++ ind2 ++ s ++ "\n").data ++
              (kidsL ind2 rest' ++ (ind.data ++ '<' :: '/' :: r)) := by
          rw [kidsL_cons, coreL_text, hesc]
          simp [nl_data]
        rw [hinput]
        apply parse_print_kids (N - 1) rest' ind ind2 (acc ++ ind2 ++ s ++ "\n") fuel r
          hNr hrest hind hind2
        · exact wsOnly_append _ _ (wsOnly_append _ _ (wsOnly_append _ _ hacc hind2) hsws)
            wsOnly_nl
        · exact append_data_ne _ _ (append_data_ne _ _ (append_data_ne _ _ haccne))
        · rw [kidsL_cons, coreL_text, hesc] at hfuel
          simp [nl_data] at hfuel ⊢
          omega
    | elem t2 a2 n2 =>
        simp only [List.cons.sizeOf_spec, XNode.elem.sizeOf_spec] at hN
        have hNe : sizeOf n2 < N - 1 := by omega
        have hNr : sizeOf rest' < N - 1 := by omega
        have hN1 : 1 ≤ N := by omega
        obtain ⟨hgk, hrest⟩ := GoodKids_cons_elem t2 a2 n2 rest' hgood
        obtain ⟨ht2, ha2⟩ := Good_elem_name t2 a2 n2 hgk
        obtain ⟨d, cs, hcore, hd⟩ := coreL_elem_head ind2 t2 a2 n2 ht2
        have hlen4 := coreL_elem_len ind2 t2 a2 n2 ht2
        rw [rekids_elem]
        obtain ⟨f2, rfl⟩ : ∃ f2, fuel = f2 + 2 := by
          refine ⟨fuel - 2, ?_⟩
          rw [kidsL_cons] at hfuel
          simp at hfuel
          omega
        have hE : parseElemF f2 (coreL ind2 (.elem t2 a2 n2) ++
            ('\n' :: (kidsL ind2 rest' ++ (ind.data ++ '<' :: '/' :: r)))) =
            some (reparse ind2 (.elem t2 a2 n2),
              '\n' :: (kidsL ind2 rest' ++ (ind.data ++ '<' :: '/' :: r))) := by
          apply parse_print_elem (N - 1) t2 a2 n2 ind2 f2 _ hNe hgk hind2
          rw [kidsL_cons] at hfuel
          simp [data_length] at hfuel ⊢
          omega
        have hK : parseNodesF f2
            ('\n' :: (kidsL ind2 rest' ++ (ind.data ++ '<' :: '/' :: r))) =
            some (rekids ind ind2 "\n" rest', '<' :: '/' :: r) := by
          have h2 := parse_print_kids (N - 1) rest' ind ind2 "\n" f2 r hNr hrest hind hind2
            wsOnly_nl nl_data_ne (by
              rw [kidsL_cons] at hfuel
              rw [nl_data]
              simp at hfuel ⊢
              omega)
          rw [nl_data] at h2
          rw [show ('\n' :: (kidsL ind2 rest' ++ (ind.data ++ '<' :: '/' :: r))) =
              ['\n'] ++ (kidsL ind2 rest' ++ (ind.data ++ '<' :: '/' :: r)) from rfl]
          exact h2
        have hW : (acc.data ++ ind2.data).all isWSChar = true := by
          rw [List.all_append]
          rw [wsOnly] at hacc hind2
          rw [hacc, hind2]
          rfl
        have hWne : acc.data ++ ind2.data ≠ [] := by
          intro h
          exact haccne (List.append_eq_nil.mp h).1
        have hEshift : parseElemF f2 ('<' :: d ::
            (cs ++ ('\n' :: (kidsL ind2 rest' ++ (ind.data ++ '<' :: '/' :: r))))) =
            some (reparse ind2 (.elem t2 a2 n2),
              '\n' :: (kidsL ind2 rest' ++ (ind.data ++ '<' :: '/' :: r))) := by
          rw [show '<' :: d :: (cs ++ ('\n' :: (kidsL ind2 rest' ++
              (ind.data ++ '<' :: '/' :: r)))) =
              coreL ind2 (.elem t2 a2 n2) ++
                ('\n' :: (kidsL ind2 rest' ++ (ind.data ++ '<' :: '/' :: r))) by
            rw [hcore]
            simp]
          exact hE
        have hstep := parseNodesF_ws_elem (acc.data ++ ind2.data) hW hWne f2 d
          (cs ++ ('\n' :: (kidsL ind2 rest' ++ (ind.data ++ '<' :: '/' :: r)))) hd
          (reparse ind2 (.elem t2 a2 n2))
          ('\n' :: (kidsL ind2 rest' ++ (ind.data ++ '<' :: '/' :: r)))
          (rekids ind ind2 "\n" rest') ('<' :: '/' :: r) hEshift hK
        have hinput : acc.data ++ (kidsL ind2 (.elem t2 a2 n2 :: rest') ++
            (ind.data ++ '<' :: '/' :: r)) =
            (acc.data ++ ind2.data) ++ '<' :: d ::
              (cs ++ ('\n' :: (kidsL ind2 rest' ++ (ind.data ++ '<' :: '/' :: r)))) := by
          rw [kidsL_cons, hcore]
          simp
        rw [hinput, hstep, ← strmk_append]
termination_by 2 * N
decreasing_by
  all_goals simp_wf
  all_goals omega

end

end Lawde

namespace Lawde

theorem stripWS_text (s : String) : stripWS (.text s) = .text s := by
  simp [stripWS]

theorem stripWS_elem (tag : String) (attrs : List (String × String)) (ks : List XNode) :
    stripWS (.elem tag attrs ks) = .elem tag attrs (stripKids ks) := by
  simp [stripWS]

theorem stripKids_nil : stripKids [] = [] := by
  simp [stripKids]

theorem stripKids_text_ws (s : String) (rest : List XNode) (h : wsOnly s = true) :
    stripKids (.text s :: rest) = stripKids rest := by
  simp [stripKids, h]

theorem stripKids_elem (t2 : String) (a2 : List (String × String)) (n2 : List XNode)
    (rest : List XNode) :
    stripKids (.elem t2 a2 n2 :: rest) = stripWS (.elem t2 a2 n2) :: stripKids rest := by
  simp [stripKids]

theorem reparse_isElem (ind tag : String) (attrs : List (String × String))
    (ks : List XNode) :
    ∃ ks2, reparse ind (.elem tag attrs ks) = .elem tag attrs ks2 := by
  rcases ks with _ | ⟨k1, _ | ⟨k2, kt⟩⟩
  · exact ⟨[], reparse_elem_nil ind tag attrs⟩
  · cases k1 with
    | text s => exact ⟨[.text s], reparse_elem_single_text ind tag s attrs⟩
    | elem t2 a2 n2 =>
        exact ⟨_, reparse_elem_single_elem ind tag attrs t2 a2 n2⟩
  · exact ⟨_, reparse_elem_multi ind tag attrs k1 k2 kt⟩

mutual

theorem strip_reparse (N : Nat) (t : XNode) (ind : String)
    (hN : sizeOf t < N) (hgood : Good t = true) (hind : wsOnly ind = true) :
    stripWS (reparse ind t) = stripWS t := by
  cases t with
  | text s => rfl
  | elem tag attrs ks =>
      rcases ks with _ | ⟨k1, _ | ⟨k2, kt⟩⟩
      · rw [reparse_elem_nil]
      · cases k1 with
        | text s => rw [reparse_elem_single_text]
        | elem t2 a2 n2 =>
            simp only [XNode.elem.sizeOf_spec, List.cons.sizeOf_spec,
              List.nil.sizeOf_spec] at hN
            have hNk : sizeOf [XNode.elem t2 a2 n2] < N := by
              simp only [XNode.elem.sizeOf_spec, List.cons.sizeOf_spec,
                List.nil.sizeOf_spec]
              omega
            have hkg : GoodKids [XNode.elem t2 a2 n2] = true :=
              Good_elem_single_elem tag attrs t2 a2 n2 hgood
            rw [reparse_elem_single_elem, stripWS_elem, stripWS_elem]
            rw [strip_rekids N [XNode.elem t2 a2 n2] ind (ind ++ indentUnit) "\n"
              hNk hkg hind (wsOnly_append ind indentUnit hind wsOnly_indentUnit)
              wsOnly_nl]
      · simp only [XNode.elem.sizeOf_spec, List.cons.sizeOf_spec] at hN
        have hNk : sizeOf (k1 :: k2 :: kt) < N := by
          simp only [List.cons.sizeOf_spec]
          omega
        have hkg : GoodKids (k1 :: k2 :: kt) = true :=
          Good_elem_multi tag attrs k1 k2 kt hgood
        rw [reparse_elem_multi, stripWS_elem, stripWS_elem]
        rw [strip_rekids N (k1 :: k2 :: kt) ind (ind ++ indentUnit) "\n"
          hNk hkg hind (wsOnly_append ind indentUnit hind wsOnly_indentUnit)
          wsOnly_nl]
termination_by 2 * N + 1
decreasing_by
  all_goals simp_wf
  all_goals omega

theorem strip_rekids (N : Nat) (ks : List XNode) (ind ind2 acc : String)
    (hN : sizeOf ks < N)
    (hgood : GoodKids ks = true) (hind : wsOnly ind = true) (hind2 : wsOnly ind2 = true)
    (hacc : wsOnly acc = true) :
    stripKids (rekids ind ind2 acc ks) = stripKids ks := by
  rcases ks with _ | ⟨k1, rest'⟩
  · rw [rekids_nil, stripKids_text_ws _ _ (wsOnly_append acc ind hacc hind), stripKids_nil]
  · cases k1 with
    | text s =>
        simp only [List.cons.sizeOf_spec, XNode.text.sizeOf_spec] at hN
        have hNr : sizeOf rest' < N - 1 := by omega
        have hN1 : 1 ≤ N := by omega
        obtain ⟨hsne, hsws, hrest⟩ := GoodKids_cons_text s rest' hgood
        rw [rekids_text, stripKids_text_ws s rest' hsws]
        exact strip_rekids (N - 1) rest' ind ind2 (acc ++ ind2 ++ s ++ "\n") hNr hrest
          hind hind2
          (wsOnly_append _ _ (wsOnly_append _ _ (wsOnly_append _ _ hacc hind2) hsws)
            wsOnly_nl)
    | elem t2 a2 n2 =>
        simp only [List.cons.sizeOf_spec, XNode.elem.sizeOf_spec] at hN
        have hNe : sizeOf (XNode.elem t2 a2 n2) < N - 1 := by
          simp only [XNode.elem.sizeOf_spec]
          omega
        have hNr : sizeOf rest' < N - 1 := by omega
        have hN1 : 1 ≤ N := by omega
        obtain ⟨hgk, hrest⟩ := GoodKids_cons_elem t2 a2 n2 rest' hgood
        obtain ⟨ks2, hrep⟩ := reparse_isElem ind2 t2 a2 n2
        rw [rekids_elem, stripKids_text_ws _ _ (wsOnly_append acc ind2 hacc hind2),
          hrep, stripKids_elem, ← hrep, stripKids_elem]
        rw [strip_reparse (N - 1) (XNode.elem t2 a2 n2) ind2 hNe hgk hind2]
        rw [strip_rekids (N - 1) rest' ind ind2 "\n" hNr hrest hind hind2 wsOnly_nl]
termination_by 2 * N
decreasing_by
  all_goals simp_wf
  all_goals omega

end

end Lawde

namespace Lawde

theorem strmk_list (l : List Char) : (String.mk l).data = l := rfl

theorem dropDeclEndL_skip (pre l : List Char)
    (h : pre.all (fun c => c != '?') = true) :
    dropDeclEndL (pre ++ l) = dropDeclEndL l := by
  induction pre with
  | nil => rfl
  | cons c cs ih =>
      rw [List.all_cons] at h
      obtain ⟨hc, hcs⟩ := Bool.and_eq_true_iff.mp h
      have hcne : ¬(c = '?') := by simpa using hc
      rw [List.cons_append, dropDeclEndL.eq_def]
      simp only [hcne, if_false]
      exact ih hcs

theorem dropDeclEndL_close (l : List Char) :
    dropDeclEndL ('?' :: '>' :: l) = some l := by
  rw [dropDeclEndL.eq_def]
  simp

theorem xmlDecl_split : xmlDecl.data =
    '<' :: '?' :: (("xml version=\"1.0\" encoding=\"utf-8\"" : String).data ++
      '?' :: '>' :: []) := by decide

theorem parse_pretty (tag : String) (attrs : List (String × String)) (ks : List XNode)
    (hgood : Good (.elem tag attrs ks) = true) :
    parseDoc (prettyDoc (.elem tag attrs ks)) = some (reparse "" (.elem tag attrs ks)) := by
  obtain ⟨htag, hattrs⟩ := Good_elem_name tag attrs ks hgood
  obtain ⟨d, cs, hcore, hd⟩ := coreL_elem_head "" tag attrs ks htag
  have hdata : (prettyDoc (.elem tag attrs ks)).data =
      '<' :: '?' :: (("xml version=\"1.0\" encoding=\"utf-8\"" : String).data ++
        ('?' :: '>' :: ('\n' :: (coreL "" (.elem tag attrs ks) ++ ['\n'])))) := by
    simp only [prettyDoc, toprettyxml, String.data_append, strmk_list, nl_data]
    rw [xmlDecl_split]
    simp
  have hdw : dropWSL (coreL "" (.elem tag attrs ks) ++ ['\n']) =
      coreL "" (.elem tag attrs ks) ++ ['\n'] := by
    rw [hcore, List.cons_append]
    exact dropWSL_cons_not '<' _ (by decide)
  have hpe := parse_print_elem (sizeOf ks + 1) tag attrs ks ""
    ((coreL "" (.elem tag attrs ks) ++ ['\n']).length + 1) ['\n']
    (by omega) hgood (by decide) (by simp)
  rw [parseDoc]
  rw [hdata]
  simp only []
  rw [if_pos (⟨trivial, trivial⟩ : True ∧ True)]
  rw [dropDeclEndL_skip _ _ (by decide), dropDeclEndL_close]
  simp only []
  rw [dropWSL_cons_ws '\n' _ (by decide), hdw, hpe]
  simp only []
  rw [show dropWSL ['\n'] = [] from rfl]
  rw [if_pos rfl]

end Lawde

namespace Lawde

/-- C7: normalization round trip, corrected.  For a structured entry that
parses to a tree t of the shape the program produces, the stored bytes are
the pretty serialization of t: it carries the fixed utf-8 declaration, the
indent unit is exactly two spaces, and re-parsing the normalized output
yields the same tree up to the whitespace-only indentation text nodes the
writer inserts (attribute and child order preserved). -/
theorem normalization_round_trip (s tag : String) (attrs : List (String × String))
    (ks : List XNode)
    (hparse : parseDoc s = some (.elem tag attrs ks))
    (hgood : Good (.elem tag attrs ks) = true) :
    normalizeStr s = some (prettyDoc (.elem tag attrs ks)) ∧
    indentUnit = "  " ∧
    (∃ body, prettyDoc (.elem tag attrs ks) = xmlDecl ++ body) ∧
    parseDoc (prettyDoc (.elem tag attrs ks)) = some (reparse "" (.elem tag attrs ks)) ∧
    stripWS (reparse "" (.elem tag attrs ks)) = stripWS (.elem tag attrs ks) := by
  refine ⟨?_, by decide, ?_, ?_, ?_⟩
  · rw [normalizeStr, hparse]
    rfl
  · refine ⟨"\n" ++ String.mk (coreL "" (.elem tag attrs ks)) ++ "\n", ?_⟩
    apply String.ext
    simp [prettyDoc, toprettyxml, String.data_append]
  · exact parse_pretty tag attrs ks hgood
  · exact strip_reparse (sizeOf (XNode.elem tag attrs ks) + 1) (.elem tag attrs ks) ""
      (by omega) hgood (by decide)

theorem normalization_round_trip_witness :
    normalizeStr demoXml = some (prettyDoc (.elem "a" []
      [.elem "b" [] [.text "t"], .elem "c" [] [.text "u"]])) ∧
    indentUnit = "  " ∧
    (∃ body, prettyDoc (XNode.elem "a" []
      [.elem "b" [] [.text "t"], .elem "c" [] [.text "u"]]) = xmlDecl ++ body) ∧
    parseDoc (prettyDoc (.elem "a" []
      [.elem "b" [] [.text "t"], .elem "c" [] [.text "u"]])) =
      some (reparse "" (.elem "a" [] [.elem "b" [] [.text "t"], .elem "c" [] [.text "u"]])) ∧
    stripWS (reparse "" (.elem "a" [] [.elem "b" [] [.text "t"], .elem "c" [] [.text "u"]])) =
      stripWS (.elem "a" [] [.elem "b" [] [.text "t"], .elem "c" [] [.text "u"]]) :=
  normalization_round_trip demoXml "a" []
    [.elem "b" [] [.text "t"], .elem "c" [] [.text "u"]] rfl (by decide)

/-- C7 counterexample to the literal claim: re-parsing the normalized
output of the demo entry does not equal re-parsing the original bytes,
because the writer inserts whitespace-only indentation text nodes (the
root gains three such children, going from 2 children to 5). -/
theorem round_trip_counterexample :
    parseDoc ((normalizeStr demoXml).getD "") ≠ parseDoc demoXml := by
  intro h
  have h2 := congrArg topKidCount h
  exact absurd h2 (by decide)

end Lawde
